import Mathlib

/-!
Verification of the numpyro funsor inference-utility core
(numpyro/contrib/funsor/infer_util.py).

The development shallowly embeds the three entry points of the source file:

* the per-site factor computation and elimination-set construction inside
  log_density (the loop over the model trace);
* config_enumerate and its config_fn;
* plate_to_enum_plate, the scoped patching of numpyro.plate.__new__.

Machine floating-point log-probabilities are embedded as exact rationals.
Since the map from log-space to weight-space (exponentiation) is a semiring
isomorphism sending logaddexp to addition and log-space addition to
multiplication, every factor is represented by its weight
(the exponential of its log-probability) in the exact semiring ℚ; logaddexp
over log-probabilities corresponds to the sum of the weights, and summing
log-probabilities corresponds to multiplying the weights.  Equality of
log-densities is equivalent to equality of the represented weights.
-/

namespace NumpyroFunsor

/-- A plate frame as it appears on a site's cond_indep_stack: a name and an
optionally assigned axis (dim is None in Python when the axis was never
materialized). -/
structure Frame where
  name : String
  dim : Option Int
  deriving DecidableEq, Repr

/-- A distribution object, seen through the capability contract the source
uses: log_prob (the Python method is called either with one argument or with
the pair (value, intermediates), embedded as the two fields logProb1 and
logProb2) and has_enumerate_support.  Log-probabilities are represented by
their weights (exponentials) in ℚ, see the module docstring. -/
structure Dist (α : Type) where
  logProb1 : α → ℚ
  logProb2 : α → List α → ℚ
  hasEnumerateSupport : Bool

/-- One recorded sample statement of a trace, with exactly the attributes the
source file reads: site['type'], site['name'], site['fn'], site['value'],
site['intermediates'], site['is_observed'], site['scale'],
site['cond_indep_stack'], and the enumerate entry of site['infer'].
The infer dict's enumerate key is embedded as Option (Option String):
none means the key is absent, some v means the key is present with value v
(v itself an Option String since Python allows the value None). -/
structure Site (α : Type) where
  name : String
  typ : String
  fn : Dist α
  value : α
  intermediates : List α
  is_observed : Bool
  scale : Option ℚ
  cond_indep_stack : List Frame
  infer_enumerate : Option (Option String)

/-- Modelled from the spec: is_identically_one is imported by the source from
numpyro.distributions.util; the spec describes a non-trivial scale as one that
is not identically one.  On the scalar embedding of scales it is equality
with 1. -/
def is_identically_one (q : ℚ) : Bool :=
  q == 1

/-- The unscaled log-probability of a site, as computed at lines 104-107 of
infer_util.py: the two-argument form of log_prob when the intermediates list
is truthy (non-empty), the one-argument form otherwise. -/
def siteLogProb {α : Type} (s : Site α) : ℚ :=
  if s.intermediates.isEmpty then s.fn.logProb1 s.value
  else s.fn.logProb2 s.value s.intermediates

/-- The scaled factor of a site, as computed at lines 109-110 of
infer_util.py: the log-probability is multiplied by the scale exactly when
the scale is present (not None) and not identically one. -/
def scaledLogProb {α : Type} (s : Site α) : ℚ :=
  match s.scale with
  | none => siteLogProb s
  | some sc => if is_identically_one sc then siteLogProb s else sc * siteLogProb s

/-- The list of per-site factors accumulated by the loop at lines 99-113 of
infer_util.py: one factor per site of kind sample, in trace order. -/
def logFactors {α : Type} (tr : List (Site α)) : List ℚ :=
  tr.foldl (fun acc s => if s.typ = "sample" then acc ++ [scaledLogProb s] else acc) []

/-- The contribution of a single site to prod_vars, from line 115 of
infer_util.py: the names of the frames on its cond_indep_stack whose dim is
not None. -/
def siteProdContribution {α : Type} (s : Site α) : Finset String :=
  ((s.cond_indep_stack.filter (fun f => f.dim ≠ none)).map Frame.name).toFinset

/-- The pair (sum_vars, prod_vars) accumulated by the loop at lines 98-115 of
infer_util.py: starting from the empty frozensets, every site of kind sample
inserts its own name into sum_vars and unions its plate-name contribution
into prod_vars. -/
def sumProdVars {α : Type} (tr : List (Site α)) : Finset String × Finset String :=
  tr.foldl
    (fun sp s =>
      if s.typ = "sample" then (insert s.name sp.1, sp.2 ∪ siteProdContribution s)
      else sp)
    (∅, ∅)

/-- The sample sites of a trace, in order. -/
def sampleSites {α : Type} (tr : List (Site α)) : List (Site α) :=
  tr.filter (fun s => s.typ = "sample")

/-!
## config_enumerate (lines 40-70 of infer_util.py)

config_fn returns the dict update that config_enumerate installs for a site:
the dict is embedded as Option (Option String), where none stands for the
empty dict and some v for the singleton dict mapping the key enumerate
to v.  The default parameter of config_enumerate is Option String, with none
standing for Python None.
-/

/-- The body of config_fn inside config_enumerate (lines 64-68 of
infer_util.py): for a non-observed sample site whose distribution has
enumerable support, the returned dict sets the enumerate key to the site's
pre-existing infer value when the key is present, and to the provided default
otherwise; for every other site the returned dict is empty. -/
def config_fn {α : Type} (default : Option String) (site : Site α) :
    Option (Option String) :=
  if site.typ = "sample" ∧ site.is_observed = false ∧ site.fn.hasEnumerateSupport then
    some (site.infer_enumerate.getD default)
  else
    none

/-- Modelled from the spec: infer_config (imported by the source from
numpyro.contrib.funsor.enum_messenger, not part of this file) applies
config_fn to every recorded sample statement and merges the returned dict
into the site's infer map; applying the singleton dict {enumerate: v} sets
the enumerate entry to v and an empty dict leaves the site unmodified. -/
def applyInferConfig {α : Type} (default : Option String) (site : Site α) :
    Site α :=
  match config_fn default site with
  | none => site
  | some v => { site with infer_enumerate := some v }

/-- A site carries no enumeration strategy when its infer map either lacks
the enumerate key or holds the value None under it. -/
def hasNoStrategy {α : Type} (site : Site α) : Prop :=
  site.infer_enumerate = none ∨ site.infer_enumerate = some none

/-!
## plate_to_enum_plate (lines 17-37 of infer_util.py)

The context manager mutates the process-wide slot numpyro.plate.__new__:
on entry it stores a lambda redirecting construction to the enumeration-aware
funsor plate, and in the finally clause it stores a freshly created lambda
constructing an ordinary plate through object.__new__ while ignoring its
class argument.  The slot is embedded as a function object carrying an
identity (Python object identity, embedded as an allocation counter) and a
behaviour; the with-statement body is an arbitrary state transformer that
either returns normally or raises, embedded as Except.
-/

/-- Behaviour of a function stored in numpyro.plate.__new__: construct the
enumeration-aware funsor plate (the lambda of line 34) or construct an
ordinary numpyro.plate through object.__new__ (the lambda of line 37, also
the behaviour of the slot before the scope is ever entered). -/
inductive PlateImpl where
  | enumAware : PlateImpl
  | ordinary : PlateImpl
  deriving DecidableEq, Repr

/-- A Python function object: an identity (object identity) and a behaviour. -/
structure NewFn where
  ident : ℕ
  impl : PlateImpl
  deriving DecidableEq, Repr

/-- The process state relevant to plate_to_enum_plate: the current value of
the slot numpyro.plate.__new__ and the allocation counter that hands out
fresh object identities. -/
structure PyState where
  plateNew : NewFn
  nextId : ℕ
  deriving Repr

/-- Allocate a fresh lambda with the given behaviour and store it into
numpyro.plate.__new__. -/
def allocNew (impl : PlateImpl) (s : PyState) : PyState :=
  { plateNew := ⟨s.nextId, impl⟩, nextId := s.nextId + 1 }

/-- The with-statement plate_to_enum_plate (lines 33-37 of infer_util.py):
on entry the slot is set to the enumeration-redirecting lambda; the body then
runs, returning normally or raising; the finally clause unconditionally sets
the slot to a newly created lambda that constructs an ordinary plate, and the
body's outcome (value or exception) is propagated. -/
def plate_to_enum_plate {E A : Type} (body : PyState → PyState × Except E A)
    (s : PyState) : PyState × Except E A :=
  let s1 := allocNew PlateImpl.enumAware s
  let br := body s1
  (allocNew PlateImpl.ordinary br.1, br.2)

/-- Constructing numpyro.plate in a given state calls the function currently
stored in numpyro.plate.__new__, so the produced plate is the kind that
function's behaviour constructs. -/
def constructPlate (s : PyState) : PlateImpl :=
  s.plateNew.impl

/-- The set of sample-site names of a trace, stated the way the spec words
it: the names of all sites of kind sample, observed and latent alike. -/
def specSumVars {α : Type} (tr : List (Site α)) : Finset String :=
  ((sampleSites tr).map Site.name).toFinset

/-- The union, over all sample sites of a trace, of the names of the plates
on their cond_indep_stack whose dim is assigned, stated the way the spec
words it. -/
def specProdVars {α : Type} (tr : List (Site α)) : Finset String :=
  ((sampleSites tr).map siteProdContribution).foldr (· ∪ ·) ∅

lemma sumProdVars_go {α : Type} (tr : List (Site α)) :
    ∀ p : Finset String × Finset String,
      tr.foldl
        (fun sp s =>
          if s.typ = "sample" then (insert s.name sp.1, sp.2 ∪ siteProdContribution s)
          else sp)
        p
      = (p.1 ∪ specSumVars tr, p.2 ∪ specProdVars tr) := by
  induction tr with
  | nil =>
    intro p
    simp [specSumVars, specProdVars, sampleSites]
  | cons s t ih =>
    intro p
    by_cases hs : s.typ = "sample"
    · simp only [List.foldl_cons, hs, if_pos]
      rw [ih]
      simp only [specSumVars, specProdVars, sampleSites, List.filter_cons,
        decide_eq_true_eq, hs, if_pos, List.map_cons, List.toFinset_cons,
        List.foldr_cons, Prod.mk.injEq]
      constructor
      · ext x
        simp only [Finset.mem_union, Finset.mem_insert]
        tauto
      · ext x
        simp only [Finset.mem_union]
        tauto
    · simp only [List.foldl_cons, hs, if_neg, not_false_iff]
      rw [ih]
      simp [specSumVars, specProdVars, sampleSites, List.filter_cons, hs]

lemma sumProdVars_eq {α : Type} (tr : List (Site α)) :
    sumProdVars tr = (specSumVars tr, specProdVars tr) := by
  rw [sumProdVars, sumProdVars_go]
  simp

/-- Claim C2: inside log_density, sum_vars is exactly the set of names of the
sites of kind sample (observed and latent alike) and prod_vars is exactly the
union over the sample sites of the names of the frames of their
cond_indep_stack whose dim is assigned (not None); a sample site with an
empty cond_indep_stack contributes its own name to sum_vars and an empty set
of plate names to prod_vars. -/
theorem log_density_elimination_sets {α : Type} (tr : List (Site α)) :
    (sumProdVars tr).1 = specSumVars tr ∧
    (sumProdVars tr).2 = specProdVars tr ∧
    (∀ s ∈ tr, s.typ = "sample" → s.cond_indep_stack = [] →
      s.name ∈ (sumProdVars tr).1 ∧ siteProdContribution s = ∅) := by
  refine ⟨by rw [sumProdVars_eq], by rw [sumProdVars_eq], ?_⟩
  intro s hs hsample hstack
  constructor
  · rw [sumProdVars_eq]
    simp only [specSumVars, List.mem_toFinset, List.mem_map, sampleSites]
    exact ⟨s, by simp [List.mem_filter, hs, hsample], rfl⟩
  · simp [siteProdContribution, hstack]

/-- Claim C2 witness: the characterization evaluated on a concrete two-site
trace with one plated sample site and one plate-free sample site. -/
theorem log_density_elimination_sets_witness :
    ((sumProdVars
        [⟨"x", "sample", ⟨fun _ => 1, fun _ _ => 1, true⟩, (), [], false, none,
            [⟨"p", some (-1)⟩, ⟨"q", none⟩], none⟩,
          ⟨"y", "sample", ⟨fun _ => 1, fun _ _ => 1, false⟩, (), [], true, none,
            [], none⟩]).1
      = specSumVars
        [⟨"x", "sample", ⟨fun _ => 1, fun _ _ => 1, true⟩, (), [], false, none,
            [⟨"p", some (-1)⟩, ⟨"q", none⟩], none⟩,
          ⟨"y", "sample", ⟨fun _ => 1, fun _ _ => 1, false⟩, (), [], true, none,
            [], none⟩]) ∧
    siteProdContribution
        (⟨"y", "sample", ⟨fun _ => 1, fun _ _ => 1, false⟩, (), [], true, none,
          [], none⟩ : Site Unit)
      = ∅ := by
  refine ⟨(log_density_elimination_sets _).1, ?_⟩
  refine ((log_density_elimination_sets
    [⟨"y", "sample", ⟨fun _ => 1, fun _ _ => 1, false⟩, (), [], true, none,
      [], none⟩]).2.2 _ ?_ rfl rfl).2
  simp

lemma logFactors_go {α : Type} (tr : List (Site α)) :
    ∀ acc : List ℚ,
      tr.foldl (fun acc s => if s.typ = "sample" then acc ++ [scaledLogProb s] else acc) acc
      = acc ++ logFactors tr := by
  induction tr with
  | nil => intro acc; simp [logFactors]
  | cons s t ih =>
    intro acc
    simp only [logFactors, List.foldl_cons, List.nil_append]
    by_cases hs : s.typ = "sample"
    · rw [if_pos hs, if_pos hs, ih (acc ++ [scaledLogProb s]), ih [scaledLogProb s]]
      simp only [List.append_assoc]
    · rw [if_neg hs, if_neg hs, ih acc]
      rfl

lemma logFactors_cons {α : Type} (s : Site α) (t : List (Site α)) :
    logFactors (s :: t)
      = (if s.typ = "sample" then [scaledLogProb s] else []) ++ logFactors t := by
  by_cases hs : s.typ = "sample"
  · rw [logFactors, List.foldl_cons, if_pos hs, if_pos hs, List.nil_append,
      logFactors_go]
  · rw [logFactors, List.foldl_cons, if_neg hs, if_neg hs, List.nil_append,
      logFactors]

lemma scaledLogProb_mem_logFactors {α : Type} {s : Site α}
    (hsample : s.typ = "sample") :
    ∀ {tr : List (Site α)}, s ∈ tr → scaledLogProb s ∈ logFactors tr := by
  intro tr
  induction tr with
  | nil => intro hs; cases hs
  | cons t ts ih =>
    intro hs
    rw [logFactors_cons]
    rcases List.mem_cons.mp hs with hs | hs
    · subst hs
      rw [if_pos hsample]
      simp
    · exact List.mem_append_right _ (ih hs)

/-- Claim C3: log_density computes a sample site's factor from the
two-argument form of log_prob exactly when the intermediates are non-empty
and from the one-argument form otherwise, multiplies by the scale exactly
when the scale is present and not identically one (so a site with positive
scale contributes scale times the log-probability), and appends the factor to
the accumulated factor list. -/
theorem log_density_site_factor {α : Type} (s : Site α) (hsample : s.typ = "sample") :
    (s.intermediates ≠ [] → siteLogProb s = s.fn.logProb2 s.value s.intermediates) ∧
    (s.intermediates = [] → siteLogProb s = s.fn.logProb1 s.value) ∧
    (∀ sc : ℚ, s.scale = some sc → is_identically_one sc = false →
      scaledLogProb s = sc * siteLogProb s) ∧
    (∀ sc : ℚ, s.scale = some sc → 0 < sc → scaledLogProb s = sc * siteLogProb s) ∧
    (∀ tr : List (Site α), s ∈ tr → scaledLogProb s ∈ logFactors tr) := by
  refine ⟨?_, ?_, ?_, ?_, ?_⟩
  · intro h
    rw [siteLogProb, if_neg]
    simpa using h
  · intro h
    rw [siteLogProb, if_pos]
    simpa using h
  · intro sc hsc hone
    rw [scaledLogProb, hsc]
    simp [hone]
  · intro sc hsc hpos
    rw [scaledLogProb, hsc]
    by_cases hone : is_identically_one sc = true
    · have : sc = 1 := by simpa [is_identically_one] using hone
      simp [hone, this]
    · simp at hone
      simp [hone]
  · intro tr htr
    exact scaledLogProb_mem_logFactors hsample htr

/-- Claim C3 witness: the factor characterization evaluated on a concrete
sample site with non-empty intermediates and scale 2. -/
theorem log_density_site_factor_witness :
    siteLogProb (⟨"x", "sample", ⟨fun _ => 3, fun _ _ => 5, true⟩, (), [()], false,
        some 2, [], none⟩ : Site Unit)
      = (5 : ℚ) ∧
    scaledLogProb (⟨"x", "sample", ⟨fun _ => 3, fun _ _ => 5, true⟩, (), [()], false,
        some 2, [], none⟩ : Site Unit)
      = 2 * siteLogProb (⟨"x", "sample", ⟨fun _ => 3, fun _ _ => 5, true⟩, (), [()],
        false, some 2, [], none⟩ : Site Unit) := by
  constructor
  · rw [(log_density_site_factor _ rfl).1 (by simp)]
  · exact (log_density_site_factor _ rfl).2.2.2.1 2 rfl (by norm_num)

/-- Claim C9: a sample site whose scale is None gets no scaling, and its
factor coincides with the factor of the same site whose scale is identically
one. -/
theorem log_density_none_scale {α : Type} (s : Site α) (h : s.scale = none) :
    scaledLogProb s = siteLogProb s ∧
    scaledLogProb { s with scale := some 1 } = scaledLogProb s := by
  obtain ⟨n, ty, fn, v, im, ob, sc, st, ie⟩ := s
  simp only at h
  subst h
  exact ⟨rfl, by simp [scaledLogProb, siteLogProb, is_identically_one]⟩

/-- Claim C9 witness: the unscaled factor of a concrete site with scale None
equals its raw log-probability and the factor of its scale-one variant. -/
theorem log_density_none_scale_witness :
    scaledLogProb (⟨"x", "sample", ⟨fun _ => 7, fun _ _ => 9, true⟩, (), [], false,
        none, [], none⟩ : Site Unit)
      = siteLogProb (⟨"x", "sample", ⟨fun _ => 7, fun _ _ => 9, true⟩, (), [], false,
        none, [], none⟩ : Site Unit) ∧
    scaledLogProb (⟨"x", "sample", ⟨fun _ => 7, fun _ _ => 9, true⟩, (), [], false,
        some 1, [], none⟩ : Site Unit)
      = scaledLogProb (⟨"x", "sample", ⟨fun _ => 7, fun _ _ => 9, true⟩, (), [], false,
        none, [], none⟩ : Site Unit) :=
  log_density_none_scale _ rfl

/-- Claim C4: on every exit of the plate_to_enum_plate scope, whatever the
body did and whether it returned normally or raised, the finally clause
leaves numpyro.plate.__new__ constructing ordinary plates, and the body's
outcome (normal value or raised exception) is propagated unchanged. -/
theorem plate_to_enum_plate_restores {E A : Type}
    (body : PyState → PyState × Except E A) (s : PyState) :
    constructPlate (plate_to_enum_plate body s).1 = PlateImpl.ordinary ∧
    (plate_to_enum_plate body s).2 = (body (allocNew PlateImpl.enumAware s)).2 :=
  ⟨rfl, rfl⟩

/-- Claim C10: the value stored into numpyro.plate.__new__ by the finally
clause is a freshly created function object constructing ordinary plates: it
differs, as an object, from whatever function was stored before the scope was
entered, for any body that only allocates objects (never rewinds the
allocation counter). -/
theorem plate_to_enum_plate_fresh_restore {E A : Type}
    (body : PyState → PyState × Except E A) (s : PyState)
    (hwf : s.plateNew.ident < s.nextId)
    (hmono : ∀ t : PyState, t.nextId ≤ (body t).1.nextId) :
    (plate_to_enum_plate body s).1.plateNew.ident ≠ s.plateNew.ident ∧
    (plate_to_enum_plate body s).1.plateNew.impl = PlateImpl.ordinary := by
  constructor
  · have key : (plate_to_enum_plate body s).1.plateNew.ident
        = (body (allocNew PlateImpl.enumAware s)).1.nextId := rfl
    rw [key]
    have h1 := hmono (allocNew PlateImpl.enumAware s)
    have h2 : (allocNew PlateImpl.enumAware s).nextId = s.nextId + 1 := rfl
    rw [h2] at h1
    omega
  · rfl

/-- Claim C10 witness: with a body that allocates nothing and returns
normally, the restored constructor is a different object from the one stored
before entry. -/
theorem plate_to_enum_plate_fresh_restore_witness :
    (plate_to_enum_plate (fun t => (t, (Except.ok () : Except Unit Unit)))
        (⟨⟨0, PlateImpl.ordinary⟩, 1⟩ : PyState)).1.plateNew.ident
      ≠ (⟨⟨0, PlateImpl.ordinary⟩, 1⟩ : PyState).plateNew.ident ∧
    (plate_to_enum_plate (fun t => (t, (Except.ok () : Except Unit Unit)))
        (⟨⟨0, PlateImpl.ordinary⟩, 1⟩ : PyState)).1.plateNew.impl
      = PlateImpl.ordinary :=
  plate_to_enum_plate_fresh_restore
    (fun t => (t, (Except.ok () : Except Unit Unit)))
    ⟨⟨0, PlateImpl.ordinary⟩, 1⟩ (by decide) (fun t => le_refl t.nextId)

/-- Claim C6: under config_enumerate, a non-observed sample site whose
distribution has enumerable support gets its enumeration strategy set to its
own pre-existing infer value when present and to the provided default
otherwise; observed sites and sites whose distribution lacks enumerable
support are left unmodified. -/
theorem config_enumerate_sites {α : Type} (default : Option String)
    (site : Site α) :
    (site.typ = "sample" → site.is_observed = false →
      site.fn.hasEnumerateSupport = true →
      ((∀ v, site.infer_enumerate = some v →
          (applyInferConfig default site).infer_enumerate = some v) ∧
        (site.infer_enumerate = none →
          (applyInferConfig default site).infer_enumerate = some default))) ∧
    (site.is_observed = true → applyInferConfig default site = site) ∧
    (site.fn.hasEnumerateSupport = false → applyInferConfig default site = site) := by
  refine ⟨?_, ?_, ?_⟩
  · intro h1 h2 h3
    constructor
    · intro v hv
      rw [applyInferConfig, config_fn, if_pos ⟨h1, h2, h3⟩, hv]
      rfl
    · intro hv
      rw [applyInferConfig, config_fn, if_pos ⟨h1, h2, h3⟩, hv]
      rfl
  · intro h
    rw [applyInferConfig, config_fn, if_neg]
    intro hc
    rw [h] at hc
    exact absurd hc.2.1 (by simp)
  · intro h
    rw [applyInferConfig, config_fn, if_neg]
    intro hc
    rw [h] at hc
    exact absurd hc.2.2 (by simp)

/-- Claim C6 witness: config_enumerate on a concrete eligible site with a
pre-existing strategy keeps the pre-existing strategy, on a concrete eligible
site without one installs the default, and leaves a concrete observed site
untouched. -/
theorem config_enumerate_sites_witness :
    (applyInferConfig (some "parallel")
        (⟨"a", "sample", ⟨fun _ => 1, fun _ _ => 1, true⟩, (), [], false, none, [],
          some (some "sequential")⟩ : Site Unit)).infer_enumerate
      = some (some "sequential") ∧
    (applyInferConfig (some "parallel")
        (⟨"b", "sample", ⟨fun _ => 1, fun _ _ => 1, true⟩, (), [], false, none, [],
          none⟩ : Site Unit)).infer_enumerate
      = some (some "parallel") ∧
    applyInferConfig (some "parallel")
        (⟨"c", "sample", ⟨fun _ => 1, fun _ _ => 1, true⟩, (), [], true, none, [],
          none⟩ : Site Unit)
      = (⟨"c", "sample", ⟨fun _ => 1, fun _ _ => 1, true⟩, (), [], true, none, [],
          none⟩ : Site Unit) :=
  ⟨((config_enumerate_sites (some "parallel") _).1 rfl rfl rfl).1 _ rfl,
    ((config_enumerate_sites (some "parallel") _).1 rfl rfl rfl).2 rfl,
    (config_enumerate_sites (some "parallel") _).2.1 rfl⟩

/-- Claim C5 counterexample: with default sequential (a value other than
parallel), config_enumerate attaches the enumerate key with value sequential
to an eligible site, so the site does not end up with an absent or None
strategy: the claim that such defaults produce sites with no enumeration
strategy attached is false. -/
theorem config_enumerate_other_default_attaches :
    (some "sequential" : Option String) ≠ some "parallel" ∧
    (applyInferConfig (some "sequential")
        (⟨"x", "sample", ⟨fun _ => 1, fun _ _ => 1, true⟩, (), [], false, none, [],
          none⟩ : Site Unit)).infer_enumerate
      = some (some "sequential") ∧
    ¬ hasNoStrategy (applyInferConfig (some "sequential")
        (⟨"x", "sample", ⟨fun _ => 1, fun _ _ => 1, true⟩, (), [], false, none, [],
          none⟩ : Site Unit)) := by
  refine ⟨by simp, rfl, ?_⟩
  rw [hasNoStrategy]
  simp [applyInferConfig, config_fn]

/-- Claim C5 (amended): every default value is accepted, and for a default
other than parallel an eligible site without a pre-existing strategy gets its
enumerate entry set to that default value itself (for example sequential, or
None), rather than being left with no entry. -/
theorem config_enumerate_other_default {α : Type} (default : Option String)
    (site : Site α) (_hd : default ≠ some "parallel")
    (h1 : site.typ = "sample") (h2 : site.is_observed = false)
    (h3 : site.fn.hasEnumerateSupport = true)
    (h4 : site.infer_enumerate = none) :
    (applyInferConfig default site).infer_enumerate = some default := by
  rw [applyInferConfig, config_fn, if_pos ⟨h1, h2, h3⟩, h4]
  rfl

/-- Claim C5 witness: the amended statement evaluated at default sequential
on a concrete eligible site. -/
theorem config_enumerate_other_default_witness :
    (applyInferConfig (some "sequential")
        (⟨"w", "sample", ⟨fun _ => 1, fun _ _ => 1, true⟩, (), [], false, none, [],
          none⟩ : Site Unit)).infer_enumerate
      = some (some "sequential") :=
  config_enumerate_other_default (some "sequential") _ (by simp) rfl rfl rfl rfl

/-- Claim C8: applying config_enumerate twice, with any two defaults, yields
for every site exactly the state after applying it once with the inner
default: a strategy already present (in particular one just installed by the
first application) is never overwritten. -/
theorem config_enumerate_idempotent {α : Type} (d1 d2 : Option String)
    (site : Site α) :
    applyInferConfig d2 (applyInferConfig d1 site) = applyInferConfig d1 site := by
  obtain ⟨n, ty, fn, v, im, ob, sc, st, ie⟩ := site
  by_cases h : ty = "sample" ∧ ob = false ∧ fn.hasEnumerateSupport = true
  · obtain ⟨h1, h2, h3⟩ := h
    subst h1
    subst h2
    cases ie with
    | none =>
      simp [applyInferConfig, config_fn, h3]
    | some v0 =>
      simp [applyInferConfig, config_fn, h3]
  · have hfix : applyInferConfig d1 (⟨n, ty, fn, v, im, ob, sc, st, ie⟩ : Site α)
        = ⟨n, ty, fn, v, im, ob, sc, st, ie⟩ := by
      rw [applyInferConfig, config_fn, if_neg]
      exact fun hc => h ⟨hc.1, by simpa using hc.2.1, by simpa using hc.2.2⟩
    rw [hfix, applyInferConfig, config_fn, if_neg]
    exact fun hc => h ⟨hc.1, by simpa using hc.2.1, by simpa using hc.2.2⟩

/-!
## The funsor sum-product eliminator (lines 117-121 of infer_util.py)

log_density hands the factor list, eliminate = sum_vars | prod_vars and
plates = prod_vars to funsor.sum_product.sum_product under a lazy
interpretation and forces the optimized expression.  The eliminator is an
external collaborator; following the spec it is modelled as generalized
variable elimination over the commutative semiring (logaddexp, add),
embedded in exact weight space (see the module docstring): a factor is a
named-dimension function into ℚ, eliminating a sum variable merges the
factors that mention it and sums its support out of their product, and
eliminating a plate variable product-reduces that axis of each factor that
carries it.  The order in which the optimizer eliminates the variables is
the parameter of the model; validity of an order captures the sum-then-plate
discipline of tensor variable elimination.
-/

/-- A named-dimension factor: the finite set of symbolic dimension names it
carries, and its value as a function of an assignment of support indices to
names.  Dimension supports are given by a global map supp from names to
support sizes. -/
structure Factor where
  vars : Finset String
  val : (String → ℕ) → ℚ

/-- A factor only reads the dimensions it declares. -/
def DependsOnly (f : Factor) : Prop :=
  ∀ σ τ : String → ℕ, (∀ x ∈ f.vars, σ x = τ x) → f.val σ = f.val τ

/-- Every factor of the collection only reads the dimensions it declares. -/
def Proper (G : Multiset Factor) : Prop :=
  ∀ f ∈ G, DependsOnly f

/-- The product of the values of a collection of factors at one assignment:
the semiring product (addition of log-densities, multiplication of
weights). -/
def evalProd (G : Multiset Factor) (σ : String → ℕ) : ℚ :=
  (G.map (fun f => f.val σ)).prod

/-- The union of the dimension names of a collection of factors. -/
def varsUnion (T : Multiset Factor) : Finset String :=
  (T.map Factor.vars).sup

/-- Eliminating the sum variable x from the factors that mention it: the new
factor carries the union of their dimensions except x, and its value sums the
support of x out of their pointwise product (logaddexp of log-densities,
addition of weights). -/
def sumElim (supp : String → ℕ) (x : String) (T : Multiset Factor) : Factor :=
  { vars := (varsUnion T).erase x,
    val := fun σ => ∑ v in Finset.range (supp x), evalProd T (Function.update σ x v) }

/-- Product-reducing the plate dimension p of a single factor: a plate axis
denotes i.i.d. replication, so it is reduced by the semiring product across
the axis (summing log-densities over the batch, multiplying weights); a
factor not carrying p is untouched. -/
def prodReduce (supp : String → ℕ) (p : String) (f : Factor) : Factor :=
  if p ∈ f.vars then
    { vars := f.vars.erase p,
      val := fun σ => ∏ i in Finset.range (supp p), f.val (Function.update σ p i) }
  else f

/-- One elimination step: a plate variable is product-reduced out of every
factor that carries it, and a sum variable is summed out of the merged
factors mentioning it; eliminating a name absent from every factor
degenerates to a no-op. -/
def elimStep (supp : String → ℕ) (isPlate : Bool) (x : String)
    (G : Multiset Factor) : Multiset Factor :=
  if isPlate then G.map (prodReduce supp x)
  else if (G.filter (fun f => x ∈ f.vars)).card = 0 then G
  else G.filter (fun f => x ∉ f.vars)
    + {sumElim supp x (G.filter (fun f => x ∈ f.vars))}

/-- Running the eliminator along an elimination order. -/
def runElim (supp : String → ℕ) (isPlate : String → Bool) (o : List String)
    (G : Multiset Factor) : Multiset Factor :=
  o.foldl (fun H x => elimStep supp (isPlate x) x H) G

/-- The numeric value of a fully reduced collection of factors: the semiring
product of the remaining (closed) factors, evaluated at the empty
assignment. -/
def finalVal (G : Multiset Factor) : ℚ :=
  evalProd G (fun _ => 0)

/-- Two variables co-occur in a factor collection when one factor carries
both names. -/
def Cooccur (G : Multiset Factor) (x y : String) : Prop :=
  ∃ f ∈ G, x ∈ f.vars ∧ y ∈ f.vars

/-- Plate-context consistency (the tractability condition of tensor variable
elimination, which funsor enforces by raising on intractable graphs): all
factors mentioning one sum variable agree on the set of plate dimensions they
carry. -/
def Consistent (isPlate : String → Bool) (G : Multiset Factor) : Prop :=
  ∀ x, isPlate x = false → ∀ f ∈ G, ∀ g ∈ G, x ∈ f.vars → x ∈ g.vars →
    f.vars.filter (fun y => isPlate y = true) = g.vars.filter (fun y => isPlate y = true)

/-- An internally valid elimination order: it mentions each variable at most
once, covers every dimension appearing in a factor, and eliminates every sum
variable before any plate dimension it co-occurs with (the sum must happen
inside the plate). -/
def ValidOrder (isPlate : String → Bool) (G : Multiset Factor)
    (o : List String) : Prop :=
  o.Nodup ∧ (∀ f ∈ G, f.vars ⊆ o.toFinset) ∧
    ∀ x p, isPlate x = false → isPlate p = true → Cooccur G x p →
      List.Sublist [x, p] o

lemma mem_varsUnion {T : Multiset Factor} {y : String} :
    y ∈ varsUnion T ↔ ∃ f ∈ T, y ∈ f.vars := by
  refine Multiset.induction_on T (by simp [varsUnion]) ?_
  intro a s ih
  simp only [varsUnion, Multiset.map_cons, Multiset.sup_cons] at ih ⊢
  rw [Finset.sup_eq_union, Finset.mem_union, ih]
  simp only [Multiset.mem_cons]
  constructor
  · rintro (h | ⟨f, hf, hy⟩)
    · exact ⟨a, Or.inl rfl, h⟩
    · exact ⟨f, Or.inr hf, hy⟩
  · rintro ⟨f, h | hf, hy⟩
    · subst h; exact Or.inl hy
    · exact Or.inr ⟨f, hf, hy⟩

lemma evalProd_add (A B : Multiset Factor) (σ : String → ℕ) :
    evalProd (A + B) σ = evalProd A σ * evalProd B σ := by
  simp [evalProd, Multiset.map_add]

lemma evalProd_singleton (f : Factor) (σ : String → ℕ) :
    evalProd {f} σ = f.val σ := by
  simp [evalProd]

lemma evalProd_congr {G : Multiset Factor} {σ τ : String → ℕ}
    (h : ∀ f ∈ G, f.val σ = f.val τ) : evalProd G σ = evalProd G τ := by
  unfold evalProd
  rw [Multiset.map_congr rfl h]

lemma update_agree_on_vars {f : Factor} {σ τ : String → ℕ} {x : String} {v : ℕ}
    (hagree : ∀ y ∈ f.vars, y ≠ x → σ y = τ y) :
    ∀ y ∈ f.vars, Function.update σ x v y = Function.update τ x v y := by
  intro y hy
  by_cases hyx : y = x
  · subst hyx; simp
  · rw [Function.update_noteq hyx, Function.update_noteq hyx]
    exact hagree y hy hyx

lemma evalProd_update_not_mem {G : Multiset Factor} {x : String}
    (hP : Proper G) (hx : ∀ f ∈ G, x ∉ f.vars) (σ : String → ℕ) (v : ℕ) :
    evalProd G (Function.update σ x v) = evalProd G σ := by
  refine evalProd_congr ?_
  intro f hf
  refine hP f hf _ _ ?_
  intro y hy
  have hyx : y ≠ x := by rintro rfl; exact hx f hf hy
  exact Function.update_noteq hyx _ _

lemma filter_partition (x : String) (G : Multiset Factor) :
    G.filter (fun f => x ∈ f.vars) + G.filter (fun f => x ∉ f.vars) = G :=
  Multiset.filter_add_not _ G

lemma vars_sumElim {supp : String → ℕ} {x : String} {T : Multiset Factor}
    {y : String} :
    y ∈ (sumElim supp x T).vars ↔ y ≠ x ∧ ∃ f ∈ T, y ∈ f.vars := by
  simp [sumElim, Finset.mem_erase, mem_varsUnion]

lemma vars_prodReduce {supp : String → ℕ} {p : String} {f : Factor} {a : String}
    (h : a ≠ p) : a ∈ (prodReduce supp p f).vars ↔ a ∈ f.vars := by
  unfold prodReduce
  split
  · simp [Finset.mem_erase, h]
  · exact Iff.rfl

lemma not_mem_vars_prodReduce {supp : String → ℕ} {p : String} {f : Factor} :
    p ∉ (prodReduce supp p f).vars := by
  unfold prodReduce
  split
  · simp
  · assumption

lemma dependsOnly_sumElim {supp : String → ℕ} {x : String} {T : Multiset Factor}
    (hP : ∀ f ∈ T, DependsOnly f) : DependsOnly (sumElim supp x T) := by
  intro σ τ hagree
  show (∑ v in Finset.range (supp x), evalProd T (Function.update σ x v))
    = ∑ v in Finset.range (supp x), evalProd T (Function.update τ x v)
  refine Finset.sum_congr rfl ?_
  intro v _
  refine evalProd_congr ?_
  intro f hf
  refine hP f hf _ _ (update_agree_on_vars ?_)
  intro y hy hyx
  exact hagree y (vars_sumElim.mpr ⟨hyx, f, hf, hy⟩)

lemma dependsOnly_prodReduce {supp : String → ℕ} {p : String} {f : Factor}
    (h : DependsOnly f) : DependsOnly (prodReduce supp p f) := by
  unfold prodReduce
  split
  · intro σ τ hagree
    show (∏ i in Finset.range (supp p), f.val (Function.update σ p i))
      = ∏ i in Finset.range (supp p), f.val (Function.update τ p i)
    refine Finset.prod_congr rfl ?_
    intro i _
    refine h _ _ (update_agree_on_vars ?_)
    intro y hy hyp
    exact hagree y (Finset.mem_erase.mpr ⟨hyp, hy⟩)
  · exact h

lemma proper_elimStep {supp : String → ℕ} {b : Bool} {x : String}
    {G : Multiset Factor} (hP : Proper G) : Proper (elimStep supp b x G) := by
  unfold elimStep
  split
  · intro f hf
    obtain ⟨g, hg, rfl⟩ := Multiset.mem_map.mp hf
    exact dependsOnly_prodReduce (hP g hg)
  · split
    · exact hP
    · intro f hf
      rcases Multiset.mem_add.mp hf with hf | hf
      · exact hP f (Multiset.mem_filter.mp hf).1
      · rw [Multiset.mem_singleton.mp hf]
        exact dependsOnly_sumElim fun g hg => hP g (Multiset.mem_filter.mp hg).1

lemma factor_ext {f g : Factor} (h1 : f.vars = g.vars)
    (h2 : ∀ σ, f.val σ = g.val σ) : f = g := by
  cases f
  cases g
  simp only [Factor.mk.injEq]
  exact ⟨h1, funext h2⟩

lemma cooccur_symm {G : Multiset Factor} {x y : String} (h : Cooccur G x y) :
    Cooccur G y x := by
  obtain ⟨f, hf, h1, h2⟩ := h
  exact ⟨f, hf, h2, h1⟩

lemma filter_vars_card_zero {x : String} {G : Multiset Factor} :
    (G.filter (fun f => x ∈ f.vars)).card = 0 ↔ ∀ f ∈ G, x ∉ f.vars := by
  rw [Multiset.card_eq_zero, Multiset.filter_eq_nil]

lemma elimStep_plate (supp : String → ℕ) (x : String) (G : Multiset Factor) :
    elimStep supp true x G = G.map (prodReduce supp x) := rfl

lemma elimStep_sum_noop {supp : String → ℕ} {x : String} {G : Multiset Factor}
    (h : ∀ f ∈ G, x ∉ f.vars) : elimStep supp false x G = G := by
  rw [elimStep, if_neg (by simp), if_pos (filter_vars_card_zero.mpr h)]

lemma elimStep_sum_eq {supp : String → ℕ} {x : String} {G : Multiset Factor}
    (h : (G.filter (fun f => x ∈ f.vars)).card ≠ 0) :
    elimStep supp false x G
      = G.filter (fun f => x ∉ f.vars)
        + {sumElim supp x (G.filter (fun f => x ∈ f.vars))} := by
  rw [elimStep, if_neg (by simp), if_neg h]

lemma varsUnion_add (A B : Multiset Factor) :
    varsUnion (A + B) = varsUnion A ∪ varsUnion B := by
  rw [varsUnion, Multiset.map_add, Multiset.sup_add, varsUnion, varsUnion,
    Finset.sup_eq_union]

lemma varsUnion_singleton (f : Factor) : varsUnion {f} = f.vars := by
  rw [varsUnion, Multiset.map_singleton, Multiset.sup_singleton]

lemma prodReduce_of_mem {supp : String → ℕ} {p : String} {f : Factor}
    (h : p ∈ f.vars) :
    prodReduce supp p f
      = ⟨f.vars.erase p,
          fun σ => ∏ i in Finset.range (supp p), f.val (Function.update σ p i)⟩ := by
  rw [prodReduce, if_pos h]

lemma prodReduce_of_not_mem {supp : String → ℕ} {p : String} {f : Factor}
    (h : p ∉ f.vars) : prodReduce supp p f = f := by
  rw [prodReduce, if_neg h]

lemma prodReduce_comm (supp : String → ℕ) {p q : String} (hpq : p ≠ q)
    (f : Factor) :
    prodReduce supp q (prodReduce supp p f) = prodReduce supp p (prodReduce supp q f) := by
  by_cases hp : p ∈ f.vars <;> by_cases hq : q ∈ f.vars
  · rw [prodReduce_of_mem hp, prodReduce_of_mem hq,
      prodReduce_of_mem (show q ∈ (⟨f.vars.erase p, _⟩ : Factor).vars from
        Finset.mem_erase.mpr ⟨Ne.symm hpq, hq⟩),
      prodReduce_of_mem (show p ∈ (⟨f.vars.erase q, _⟩ : Factor).vars from
        Finset.mem_erase.mpr ⟨hpq, hp⟩)]
    refine factor_ext ?_ ?_
    · ext y
      simp only [Finset.mem_erase]
      tauto
    · intro σ
      show (∏ j in Finset.range (supp q), ∏ i in Finset.range (supp p),
          f.val (Function.update (Function.update σ q j) p i))
        = ∏ i in Finset.range (supp p), ∏ j in Finset.range (supp q),
          f.val (Function.update (Function.update σ p i) q j)
      rw [Finset.prod_comm]
      refine Finset.prod_congr rfl fun i _ => Finset.prod_congr rfl fun j _ => ?_
      rw [Function.update_comm hpq]
  · rw [prodReduce_of_not_mem hq, prodReduce_of_mem hp,
      prodReduce_of_not_mem (show q ∉ (⟨f.vars.erase p, _⟩ : Factor).vars from
        fun hc => hq (Finset.mem_of_mem_erase hc))]
  · rw [prodReduce_of_not_mem hp, prodReduce_of_mem hq,
      prodReduce_of_not_mem (show p ∉ (⟨f.vars.erase q, _⟩ : Factor).vars from
        fun hc => hp (Finset.mem_of_mem_erase hc))]
  · rw [prodReduce_of_not_mem hp, prodReduce_of_not_mem hq,
      prodReduce_of_not_mem hp]

lemma elimStep_plate_plate_comm (supp : String → ℕ) {p q : String} (hpq : p ≠ q)
    (G : Multiset Factor) :
    elimStep supp true q (elimStep supp true p G)
      = elimStep supp true p (elimStep supp true q G) := by
  rw [elimStep_plate, elimStep_plate, elimStep_plate, elimStep_plate,
    Multiset.map_map, Multiset.map_map]
  exact Multiset.map_congr rfl fun f _ => prodReduce_comm supp hpq f

lemma map_prodReduce_filter_mem (supp : String → ℕ) {a p : String} (hap : a ≠ p)
    (H : Multiset Factor) :
    (H.map (prodReduce supp p)).filter (fun f => a ∈ f.vars)
      = (H.filter (fun f => a ∈ f.vars)).map (prodReduce supp p) := by
  rw [Multiset.filter_map]
  congr 1
  exact Multiset.filter_congr fun f _ => vars_prodReduce hap

lemma map_prodReduce_filter_not_mem (supp : String → ℕ) {a p : String}
    (hap : a ≠ p) (H : Multiset Factor) :
    (H.map (prodReduce supp p)).filter (fun f => a ∉ f.vars)
      = (H.filter (fun f => a ∉ f.vars)).map (prodReduce supp p) := by
  rw [Multiset.filter_map]
  congr 1
  exact Multiset.filter_congr fun f _ => not_congr (vars_prodReduce hap)

lemma elimStep_sum_plate_comm (supp : String → ℕ) {a p : String} (hap : a ≠ p)
    {H : Multiset Factor} (hno : ¬ Cooccur H a p) :
    elimStep supp true p (elimStep supp false a H)
      = elimStep supp false a (elimStep supp true p H) := by
  by_cases hcard : (H.filter (fun f => a ∈ f.vars)).card = 0
  · have h0 : ∀ f ∈ H, a ∉ f.vars := filter_vars_card_zero.mp hcard
    rw [elimStep_sum_noop h0, elimStep_plate, elimStep_sum_noop ?_]
    intro f hf
    obtain ⟨g, hg, rfl⟩ := Multiset.mem_map.mp hf
    exact fun hc => h0 g hg ((vars_prodReduce hap).mp hc)
  · have hTaP : ∀ f ∈ H.filter (fun f => a ∈ f.vars), p ∉ f.vars := by
      intro f hf hp
      obtain ⟨hfH, hfa⟩ := Multiset.mem_filter.mp hf
      exact hno ⟨f, hfH, hfa, hp⟩
    have hTaFix : (H.filter (fun f => a ∈ f.vars)).map (prodReduce supp p)
        = H.filter (fun f => a ∈ f.vars) := by
      rw [show (H.filter (fun f => a ∈ f.vars)).map (prodReduce supp p)
          = (H.filter (fun f => a ∈ f.vars)).map (fun f => f) from
        Multiset.map_congr rfl fun f hf => prodReduce_of_not_mem (hTaP f hf)]
      exact Multiset.map_id' _
    have hpga : p ∉ (sumElim supp a (H.filter (fun f => a ∈ f.vars))).vars := by
      intro hc
      obtain ⟨-, f, hf, hpf⟩ := vars_sumElim.mp hc
      exact hTaP f hf hpf
    have hcard2 : ((H.map (prodReduce supp p)).filter (fun f => a ∈ f.vars)).card ≠ 0 := by
      rw [map_prodReduce_filter_mem supp hap, hTaFix]
      exact hcard
    rw [elimStep_sum_eq hcard, elimStep_plate, Multiset.map_add,
      Multiset.map_singleton, prodReduce_of_not_mem hpga, elimStep_plate,
      elimStep_sum_eq hcard2, map_prodReduce_filter_mem supp hap, hTaFix,
      map_prodReduce_filter_not_mem supp hap]

lemma not_mem_elimStep_sum {supp : String → ℕ} {x y : String} {H : Multiset Factor}
    (h0 : ∀ f ∈ H, y ∉ f.vars) :
    ∀ f ∈ elimStep supp false x H, y ∉ f.vars := by
  intro f hf
  by_cases hc : (H.filter (fun g => x ∈ g.vars)).card = 0
  · rw [elimStep_sum_noop (filter_vars_card_zero.mp hc)] at hf
    exact h0 f hf
  · rw [elimStep_sum_eq hc] at hf
    rcases Multiset.mem_add.mp hf with hf | hf
    · exact h0 f (Multiset.mem_filter.mp hf).1
    · rw [Multiset.mem_singleton.mp hf]
      intro hy
      obtain ⟨-, g, hg, hyg⟩ := vars_sumElim.mp hy
      exact h0 g (Multiset.mem_filter.mp hg).1 hyg

lemma filter_or_decomp {a b : String} (H : Multiset Factor) :
    H.filter (fun f => a ∈ f.vars ∨ b ∈ f.vars)
      = H.filter (fun f => a ∈ f.vars)
        + H.filter (fun f => b ∈ f.vars ∧ a ∉ f.vars) := by
  have h := filter_partition a (H.filter (fun f => a ∈ f.vars ∨ b ∈ f.vars))
  rw [Multiset.filter_filter, Multiset.filter_filter] at h
  rw [← h]
  congr 1
  · refine Multiset.filter_congr fun f _ => ?_
    constructor
    · exact fun hf => hf.1
    · exact fun hf => ⟨hf, Or.inl hf⟩
  · refine Multiset.filter_congr fun f _ => ?_
    constructor
    · rintro ⟨hna, ha | hb⟩
      · exact absurd ha hna
      · exact ⟨hb, hna⟩
    · rintro ⟨hb, hna⟩
      exact ⟨hna, Or.inr hb⟩

lemma finset_erase_comm (s : Finset String) (a b : String) :
    (s.erase a).erase b = (s.erase b).erase a := by
  ext y
  simp only [Finset.mem_erase]
  tauto

lemma merged_vars (supp : String → ℕ) {a b : String} (hab : a ≠ b)
    (H : Multiset Factor) :
    (sumElim supp b (H.filter (fun f => b ∈ f.vars ∧ a ∉ f.vars)
        + {sumElim supp a (H.filter (fun f => a ∈ f.vars))})).vars
      = ((varsUnion (H.filter (fun f => a ∈ f.vars ∨ b ∈ f.vars))).erase a).erase b := by
  ext y
  show y ∈ (varsUnion _).erase b ↔ _
  rw [varsUnion_add, varsUnion_singleton]
  show y ∈ (varsUnion _ ∪ (varsUnion _).erase a).erase b ↔ _
  simp only [Finset.mem_erase, Finset.mem_union, mem_varsUnion,
    Multiset.mem_filter]
  constructor
  · rintro ⟨hyb, ⟨f, ⟨hfH, hbf, haf⟩, hyf⟩ | ⟨hya, f, ⟨hfH, haf⟩, hyf⟩⟩
    · have hya : y ≠ a := by rintro rfl; exact haf hyf
      exact ⟨hyb, hya, f, ⟨hfH, Or.inr hbf⟩, hyf⟩
    · exact ⟨hyb, hya, f, ⟨hfH, Or.inl haf⟩, hyf⟩
  · rintro ⟨hyb, hya, f, ⟨hfH, haf | hbf⟩, hyf⟩
    · exact ⟨hyb, Or.inr ⟨hya, f, ⟨hfH, haf⟩, hyf⟩⟩
    · by_cases haf : a ∈ f.vars
      · exact ⟨hyb, Or.inr ⟨hya, f, ⟨hfH, haf⟩, hyf⟩⟩
      · exact ⟨hyb, Or.inl ⟨f, ⟨hfH, hbf, haf⟩, hyf⟩⟩

lemma merged_val (supp : String → ℕ) {a b : String} {H : Multiset Factor}
    (hP : Proper H) (σ : String → ℕ) :
    (sumElim supp b (H.filter (fun f => b ∈ f.vars ∧ a ∉ f.vars)
        + {sumElim supp a (H.filter (fun f => a ∈ f.vars))})).val σ
      = ∑ w in Finset.range (supp b), ∑ v in Finset.range (supp a),
          evalProd (H.filter (fun f => a ∈ f.vars ∨ b ∈ f.vars))
            (Function.update (Function.update σ b w) a v) := by
  show (∑ w in Finset.range (supp b),
      evalProd (H.filter (fun f => b ∈ f.vars ∧ a ∉ f.vars)
        + {sumElim supp a (H.filter (fun f => a ∈ f.vars))})
        (Function.update σ b w)) = _
  refine Finset.sum_congr rfl fun w _ => ?_
  rw [evalProd_add, evalProd_singleton]
  show (evalProd (H.filter (fun f => b ∈ f.vars ∧ a ∉ f.vars))
      (Function.update σ b w))
      * (∑ v in Finset.range (supp a),
          evalProd (H.filter (fun f => a ∈ f.vars))
            (Function.update (Function.update σ b w) a v)) = _
  rw [Finset.mul_sum]
  refine Finset.sum_congr rfl fun v _ => ?_
  have hPA : Proper (H.filter (fun f => b ∈ f.vars ∧ a ∉ f.vars)) :=
    fun f hf => hP f (Multiset.mem_filter.mp hf).1
  have hA : ∀ f ∈ H.filter (fun f => b ∈ f.vars ∧ a ∉ f.vars), a ∉ f.vars :=
    fun f hf => (Multiset.mem_filter.mp hf).2.2
  rw [← evalProd_update_not_mem hPA hA (Function.update σ b w) v, ← evalProd_add]
  congr 1
  rw [add_comm]
  exact (filter_or_decomp H).symm

lemma elimStep_sum_sum_comm (supp : String → ℕ) {a b : String} (hab : a ≠ b)
    {H : Multiset Factor} (hP : Proper H) :
    elimStep supp false b (elimStep supp false a H)
      = elimStep supp false a (elimStep supp false b H) := by
  by_cases hcA : (H.filter (fun f => a ∈ f.vars)).card = 0
  · have h0a : ∀ f ∈ H, a ∉ f.vars := filter_vars_card_zero.mp hcA
    rw [elimStep_sum_noop h0a, elimStep_sum_noop (not_mem_elimStep_sum h0a)]
  by_cases hcB : (H.filter (fun f => b ∈ f.vars)).card = 0
  · have h0b : ∀ f ∈ H, b ∉ f.vars := filter_vars_card_zero.mp hcB
    rw [elimStep_sum_noop h0b, elimStep_sum_noop (not_mem_elimStep_sum h0b)]
  by_cases hco : Cooccur H a b
  · -- co-occurring sum variables: both orders merge into the same factor
    have hga_b : b ∈ (sumElim supp a (H.filter (fun f => a ∈ f.vars))).vars := by
      obtain ⟨f, hfH, haf, hbf⟩ := hco
      exact vars_sumElim.mpr ⟨Ne.symm hab, f, Multiset.mem_filter.mpr ⟨hfH, haf⟩, hbf⟩
    have hgb_a : a ∈ (sumElim supp b (H.filter (fun f => b ∈ f.vars))).vars := by
      obtain ⟨f, hfH, haf, hbf⟩ := hco
      exact vars_sumElim.mpr ⟨hab, f, Multiset.mem_filter.mpr ⟨hfH, hbf⟩, haf⟩
    have efiltA : ((H.filter (fun f => a ∉ f.vars)
          + {sumElim supp a (H.filter (fun f => a ∈ f.vars))}).filter
            (fun f => b ∈ f.vars))
        = H.filter (fun f => b ∈ f.vars ∧ a ∉ f.vars)
          + {sumElim supp a (H.filter (fun f => a ∈ f.vars))} := by
      rw [Multiset.filter_add, Multiset.filter_filter,
        Multiset.filter_singleton, if_pos hga_b]
    have efiltA' : ((H.filter (fun f => a ∉ f.vars)
          + {sumElim supp a (H.filter (fun f => a ∈ f.vars))}).filter
            (fun f => b ∉ f.vars))
        = H.filter (fun f => b ∉ f.vars ∧ a ∉ f.vars) := by
      rw [Multiset.filter_add, Multiset.filter_filter,
        Multiset.filter_singleton, if_neg (by simpa using hga_b)]
      simp only [Multiset.empty_eq_zero, add_zero]
    have efiltB : ((H.filter (fun f => b ∉ f.vars)
          + {sumElim supp b (H.filter (fun f => b ∈ f.vars))}).filter
            (fun f => a ∈ f.vars))
        = H.filter (fun f => a ∈ f.vars ∧ b ∉ f.vars)
          + {sumElim supp b (H.filter (fun f => b ∈ f.vars))} := by
      rw [Multiset.filter_add, Multiset.filter_filter,
        Multiset.filter_singleton, if_pos hgb_a]
    have efiltB' : ((H.filter (fun f => b ∉ f.vars)
          + {sumElim supp b (H.filter (fun f => b ∈ f.vars))}).filter
            (fun f => a ∉ f.vars))
        = H.filter (fun f => a ∉ f.vars ∧ b ∉ f.vars) := by
      rw [Multiset.filter_add, Multiset.filter_filter,
        Multiset.filter_singleton, if_neg (by simpa using hgb_a)]
      simp only [Multiset.empty_eq_zero, add_zero]
    have hcB' : (((elimStep supp false a H)).filter (fun f => b ∈ f.vars)).card ≠ 0 := by
      rw [elimStep_sum_eq hcA, efiltA]
      simp
    have hcA' : (((elimStep supp false b H)).filter (fun f => a ∈ f.vars)).card ≠ 0 := by
      rw [elimStep_sum_eq hcB, efiltB]
      simp
    rw [elimStep_sum_eq hcB', elimStep_sum_eq hcA']
    rw [elimStep_sum_eq hcA, elimStep_sum_eq hcB, efiltA, efiltA', efiltB, efiltB']
    congr 1
    · refine Multiset.filter_congr fun f _ => ?_
      exact and_comm
    · rw [Multiset.singleton_inj]
      refine factor_ext ?_ ?_
      · rw [merged_vars supp hab H]
        have h2 := merged_vars supp (Ne.symm hab) H
        rw [show H.filter (fun f => b ∈ f.vars ∨ a ∈ f.vars)
            = H.filter (fun f => a ∈ f.vars ∨ b ∈ f.vars) from
          Multiset.filter_congr fun f _ => or_comm] at h2
        rw [h2, finset_erase_comm]
      · intro σ
        rw [merged_val supp hP σ, merged_val supp hP σ]
        rw [show H.filter (fun f => b ∈ f.vars ∨ a ∈ f.vars)
            = H.filter (fun f => a ∈ f.vars ∨ b ∈ f.vars) from
          Multiset.filter_congr fun f _ => or_comm]
        rw [Finset.sum_comm]
        refine Finset.sum_congr rfl fun v _ => Finset.sum_congr rfl fun w _ => ?_
        rw [Function.update_comm hab]
  · -- non-co-occurring sum variables: the two merges touch disjoint factors
    have hnba : ∀ f ∈ H, a ∈ f.vars → b ∉ f.vars :=
      fun f hf ha hb => hco ⟨f, hf, ha, hb⟩
    have hga_b : b ∉ (sumElim supp a (H.filter (fun f => a ∈ f.vars))).vars := by
      intro hc
      obtain ⟨-, f, hf, hbf⟩ := vars_sumElim.mp hc
      obtain ⟨hfH, haf⟩ := Multiset.mem_filter.mp hf
      exact hnba f hfH haf hbf
    have hgb_a : a ∉ (sumElim supp b (H.filter (fun f => b ∈ f.vars))).vars := by
      intro hc
      obtain ⟨-, f, hf, haf⟩ := vars_sumElim.mp hc
      obtain ⟨hfH, hbf⟩ := Multiset.mem_filter.mp hf
      exact hnba f hfH haf hbf
    have eBA : H.filter (fun f => b ∈ f.vars ∧ a ∉ f.vars)
        = H.filter (fun f => b ∈ f.vars) := by
      refine Multiset.filter_congr fun f hf => ?_
      constructor
      · exact fun h => h.1
      · exact fun h => ⟨h, fun ha => hnba f hf ha h⟩
    have eAB : H.filter (fun f => a ∈ f.vars ∧ b ∉ f.vars)
        = H.filter (fun f => a ∈ f.vars) := by
      refine Multiset.filter_congr fun f hf => ?_
      constructor
      · exact fun h => h.1
      · exact fun h => ⟨h, hnba f hf h⟩
    have efiltA : ((H.filter (fun f => a ∉ f.vars)
          + {sumElim supp a (H.filter (fun f => a ∈ f.vars))}).filter
            (fun f => b ∈ f.vars))
        = H.filter (fun f => b ∈ f.vars) := by
      rw [Multiset.filter_add, Multiset.filter_filter,
        Multiset.filter_singleton, if_neg hga_b]
      simp only [Multiset.empty_eq_zero, add_zero]
      exact eBA
    have efiltA' : ((H.filter (fun f => a ∉ f.vars)
          + {sumElim supp a (H.filter (fun f => a ∈ f.vars))}).filter
            (fun f => b ∉ f.vars))
        = H.filter (fun f => b ∉ f.vars ∧ a ∉ f.vars)
          + {sumElim supp a (H.filter (fun f => a ∈ f.vars))} := by
      rw [Multiset.filter_add, Multiset.filter_filter,
        Multiset.filter_singleton, if_pos hga_b]
    have efiltB : ((H.filter (fun f => b ∉ f.vars)
          + {sumElim supp b (H.filter (fun f => b ∈ f.vars))}).filter
            (fun f => a ∈ f.vars))
        = H.filter (fun f => a ∈ f.vars) := by
      rw [Multiset.filter_add, Multiset.filter_filter,
        Multiset.filter_singleton, if_neg hgb_a]
      simp only [Multiset.empty_eq_zero, add_zero]
      exact eAB
    have efiltB' : ((H.filter (fun f => b ∉ f.vars)
          + {sumElim supp b (H.filter (fun f => b ∈ f.vars))}).filter
            (fun f => a ∉ f.vars))
        = H.filter (fun f => a ∉ f.vars ∧ b ∉ f.vars)
          + {sumElim supp b (H.filter (fun f => b ∈ f.vars))} := by
      rw [Multiset.filter_add, Multiset.filter_filter,
        Multiset.filter_singleton, if_pos hgb_a]
    have hcB' : (((elimStep supp false a H)).filter (fun f => b ∈ f.vars)).card ≠ 0 := by
      rw [elimStep_sum_eq hcA, efiltA]
      exact hcB
    have hcA' : (((elimStep supp false b H)).filter (fun f => a ∈ f.vars)).card ≠ 0 := by
      rw [elimStep_sum_eq hcB, efiltB]
      exact hcA
    rw [elimStep_sum_eq hcB', elimStep_sum_eq hcA']
    rw [elimStep_sum_eq hcA, elimStep_sum_eq hcB, efiltA, efiltA', efiltB, efiltB']
    rw [show H.filter (fun f => b ∉ f.vars ∧ a ∉ f.vars)
        = H.filter (fun f => a ∉ f.vars ∧ b ∉ f.vars) from
      Multiset.filter_congr fun f _ => and_comm]
    rw [add_right_comm]

lemma vars_prodReduce_subset {supp : String → ℕ} {p : String} {f : Factor} :
    (prodReduce supp p f).vars ⊆ f.vars := by
  unfold prodReduce
  split
  · exact Finset.erase_subset _ _
  · exact subset_refl _

lemma elimStep_comm (supp : String → ℕ) (isPlate : String → Bool) {a b : String}
    (hab : a ≠ b) {H : Multiset Factor} (hP : Proper H)
    (hmix : Cooccur H a b → isPlate a = isPlate b) :
    elimStep supp (isPlate b) b (elimStep supp (isPlate a) a H)
      = elimStep supp (isPlate a) a (elimStep supp (isPlate b) b H) := by
  cases hpa : isPlate a <;> cases hpb : isPlate b
  · exact elimStep_sum_sum_comm supp hab hP
  · have hno : ¬ Cooccur H a b := by
      intro hc
      rw [hpa, hpb] at hmix
      exact Bool.false_ne_true (hmix hc)
    exact elimStep_sum_plate_comm supp hab hno
  · have hno : ¬ Cooccur H b a := by
      intro hc
      rw [hpa, hpb] at hmix
      exact Bool.false_ne_true (hmix (cooccur_symm hc)).symm
    exact (elimStep_sum_plate_comm supp (Ne.symm hab) hno).symm
  · exact elimStep_plate_plate_comm supp hab H

lemma x_not_mem_elimStep {supp : String → ℕ} (b : Bool) (x : String)
    (H : Multiset Factor) : ∀ f ∈ elimStep supp b x H, x ∉ f.vars := by
  intro f hf
  cases b
  · by_cases hc : (H.filter (fun g => x ∈ g.vars)).card = 0
    · rw [elimStep_sum_noop (filter_vars_card_zero.mp hc)] at hf
      exact filter_vars_card_zero.mp hc f hf
    · rw [elimStep_sum_eq hc] at hf
      rcases Multiset.mem_add.mp hf with hf | hf
      · exact (Multiset.mem_filter.mp hf).2
      · rw [Multiset.mem_singleton.mp hf]
        intro hx
        exact (vars_sumElim.mp hx).1 rfl
  · rw [elimStep_plate] at hf
    obtain ⟨g, hg, rfl⟩ := Multiset.mem_map.mp hf
    exact not_mem_vars_prodReduce

lemma mem_vars_elimStep {supp : String → ℕ} {b : Bool} {x : String}
    {H : Multiset Factor} {f : Factor} {y : String}
    (hf : f ∈ elimStep supp b x H) (hy : y ∈ f.vars) :
    ∃ g ∈ H, y ∈ g.vars := by
  cases b
  · by_cases hc : (H.filter (fun g => x ∈ g.vars)).card = 0
    · rw [elimStep_sum_noop (filter_vars_card_zero.mp hc)] at hf
      exact ⟨f, hf, hy⟩
    · rw [elimStep_sum_eq hc] at hf
      rcases Multiset.mem_add.mp hf with hf | hf
      · exact ⟨f, (Multiset.mem_filter.mp hf).1, hy⟩
      · rw [Multiset.mem_singleton.mp hf] at hy
        obtain ⟨-, g, hg, hyg⟩ := vars_sumElim.mp hy
        exact ⟨g, (Multiset.mem_filter.mp hg).1, hyg⟩
  · rw [elimStep_plate] at hf
    obtain ⟨g, hg, rfl⟩ := Multiset.mem_map.mp hf
    exact ⟨g, hg, vars_prodReduce_subset hy⟩

lemma cooccur_elimStep_sum {supp : String → ℕ} {isPlate : String → Bool}
    {x : String} {H : Multiset Factor}
    (hC : Consistent isPlate H) (hx : isPlate x = false)
    {y q : String} (hq : isPlate q = true)
    (hco : Cooccur (elimStep supp false x H) y q) : Cooccur H y q := by
  by_cases hc : (H.filter (fun g => x ∈ g.vars)).card = 0
  · rw [elimStep_sum_noop (filter_vars_card_zero.mp hc)] at hco
    exact hco
  · obtain ⟨f, hf, hyf, hqf⟩ := hco
    rw [elimStep_sum_eq hc] at hf
    rcases Multiset.mem_add.mp hf with hf | hf
    · exact ⟨f, (Multiset.mem_filter.mp hf).1, hyf, hqf⟩
    · rw [Multiset.mem_singleton.mp hf] at hyf hqf
      obtain ⟨-, f₁, hf₁, hyf₁⟩ := vars_sumElim.mp hyf
      obtain ⟨-, f₂, hf₂, hqf₂⟩ := vars_sumElim.mp hqf
      obtain ⟨hf₁H, hxf₁⟩ := Multiset.mem_filter.mp hf₁
      obtain ⟨hf₂H, hxf₂⟩ := Multiset.mem_filter.mp hf₂
      have hplates := hC x hx f₂ hf₂H f₁ hf₁H hxf₂ hxf₁
      have hqmem : q ∈ f₂.vars.filter (fun z => isPlate z = true) :=
        Finset.mem_filter.mpr ⟨hqf₂, hq⟩
      rw [hplates] at hqmem
      exact ⟨f₁, hf₁H, hyf₁, (Finset.mem_filter.mp hqmem).1⟩

lemma cooccur_elimStep_plate {supp : String → ℕ} {x : String}
    {H : Multiset Factor} {y q : String}
    (hco : Cooccur (elimStep supp true x H) y q) : Cooccur H y q := by
  obtain ⟨f, hf, hyf, hqf⟩ := hco
  rw [elimStep_plate] at hf
  obtain ⟨g, hg, rfl⟩ := Multiset.mem_map.mp hf
  exact ⟨g, hg, vars_prodReduce_subset hyf, vars_prodReduce_subset hqf⟩

lemma filter_erase_swap (p : String → Prop) [DecidablePred p] (s : Finset String)
    (a : String) : (s.erase a).filter p = (s.filter p).erase a := by
  ext y
  simp only [Finset.mem_filter, Finset.mem_erase]
  tauto

lemma plate_part_sumElim {supp : String → ℕ} {isPlate : String → Bool}
    {x : String} {H : Multiset Factor} {h₀ : Factor}
    (hC : Consistent isPlate H) (hx : isPlate x = false)
    (hh₀ : h₀ ∈ H.filter (fun f => x ∈ f.vars)) :
    (sumElim supp x (H.filter (fun f => x ∈ f.vars))).vars.filter
        (fun z => isPlate z = true)
      = h₀.vars.filter (fun z => isPlate z = true) := by
  obtain ⟨hh₀H, hxh₀⟩ := Multiset.mem_filter.mp hh₀
  ext q
  simp only [Finset.mem_filter, vars_sumElim]
  constructor
  · rintro ⟨⟨hqx, f, hf, hqf⟩, hq⟩
    obtain ⟨hfH, hxf⟩ := Multiset.mem_filter.mp hf
    have hplates := hC x hx f hfH h₀ hh₀H hxf hxh₀
    have hqmem : q ∈ f.vars.filter (fun z => isPlate z = true) :=
      Finset.mem_filter.mpr ⟨hqf, hq⟩
    rw [hplates] at hqmem
    exact Finset.mem_filter.mp hqmem
  · rintro ⟨hqh₀, hq⟩
    have hqx : q ≠ x := by
      rintro rfl
      rw [hx] at hq
      exact Bool.false_ne_true hq
    exact ⟨⟨hqx, h₀, hh₀, hqh₀⟩, hq⟩

lemma consistent_elimStep_sum {supp : String → ℕ} {isPlate : String → Bool}
    {x : String} {H : Multiset Factor}
    (hC : Consistent isPlate H) (hx : isPlate x = false) :
    Consistent isPlate (elimStep supp false x H) := by
  by_cases hc : (H.filter (fun g => x ∈ g.vars)).card = 0
  · rw [elimStep_sum_noop (filter_vars_card_zero.mp hc)]
    exact hC
  · intro z hz f hf g hg hzf hzg
    rw [elimStep_sum_eq hc] at hf hg
    rcases Multiset.mem_add.mp hf with hf | hf <;>
      rcases Multiset.mem_add.mp hg with hg | hg
    · exact hC z hz f (Multiset.mem_filter.mp hf).1 g
        (Multiset.mem_filter.mp hg).1 hzf hzg
    · rw [Multiset.mem_singleton.mp hg] at hzg ⊢
      obtain ⟨-, h₀, hh₀, hz0⟩ := vars_sumElim.mp hzg
      rw [plate_part_sumElim hC hx hh₀]
      exact hC z hz f (Multiset.mem_filter.mp hf).1 h₀
        (Multiset.mem_filter.mp hh₀).1 hzf hz0
    · rw [Multiset.mem_singleton.mp hf] at hzf ⊢
      obtain ⟨-, h₀, hh₀, hz0⟩ := vars_sumElim.mp hzf
      rw [plate_part_sumElim hC hx hh₀]
      exact hC z hz h₀ (Multiset.mem_filter.mp hh₀).1 g
        (Multiset.mem_filter.mp hg).1 hz0 hzg
    · rw [Multiset.mem_singleton.mp hf, Multiset.mem_singleton.mp hg]

lemma consistent_elimStep_plate {supp : String → ℕ} {isPlate : String → Bool}
    {p : String} {H : Multiset Factor}
    (hC : Consistent isPlate H) (hp : isPlate p = true) :
    Consistent isPlate (elimStep supp true p H) := by
  intro z hz f' hf' g' hg' hzf hzg
  rw [elimStep_plate] at hf' hg'
  obtain ⟨f, hf, rfl⟩ := Multiset.mem_map.mp hf'
  obtain ⟨g, hg, rfl⟩ := Multiset.mem_map.mp hg'
  have hzp : z ≠ p := by
    rintro rfl
    rw [hz] at hp
    exact Bool.false_ne_true hp
  have hzf2 : z ∈ f.vars := (vars_prodReduce hzp).mp hzf
  have hzg2 : z ∈ g.vars := (vars_prodReduce hzp).mp hzg
  have hbase := hC z hz f hf g hg hzf2 hzg2
  have e : ∀ h : Factor,
      (prodReduce supp p h).vars.filter (fun w => isPlate w = true)
        = (h.vars.filter (fun w => isPlate w = true)).erase p := by
    intro h
    unfold prodReduce
    split
    · exact filter_erase_swap _ _ _
    · refine (Finset.erase_eq_of_not_mem ?_).symm
      intro hmem
      exact (by assumption : p ∉ h.vars) (Finset.mem_filter.mp hmem).1
  rw [e f, e g, hbase]

lemma consistent_elimStep {supp : String → ℕ} {isPlate : String → Bool}
    {x : String} {H : Multiset Factor} (hC : Consistent isPlate H) :
    Consistent isPlate (elimStep supp (isPlate x) x H) := by
  cases hx : isPlate x
  · exact consistent_elimStep_sum hC hx
  · exact consistent_elimStep_plate hC hx

lemma cooccur_elimStep {supp : String → ℕ} {isPlate : String → Bool}
    {x : String} {H : Multiset Factor} {y q : String}
    (hC : Consistent isPlate H) (hq : isPlate q = true)
    (hco : Cooccur (elimStep supp (isPlate x) x H) y q) : Cooccur H y q := by
  cases hx : isPlate x
  · rw [hx] at hco
    exact cooccur_elimStep_sum hC hx hq hco
  · rw [hx] at hco
    exact cooccur_elimStep_plate hco

lemma sublist_erase_of_not_mem {l₁ l₂ : List String} {a : String}
    (h : List.Sublist l₁ l₂) (ha : a ∉ l₁) : List.Sublist l₁ (l₂.erase a) := by
  induction h with
  | slnil => exact List.nil_sublist _
  | cons c h ih =>
    by_cases hca : c = a
    · subst hca
      rw [List.erase_cons_head]
      exact h
    · rw [List.erase_cons_tail (not_beq_of_ne hca)]
      exact List.Sublist.cons c (ih ha)
  | cons₂ c h ih =>
    have hca : c ≠ a := fun hc => ha (hc ▸ List.mem_cons_self c _)
    rw [List.erase_cons_tail (not_beq_of_ne hca)]
    exact List.Sublist.cons₂ c (ih fun hc => ha (List.mem_cons_of_mem c hc))

lemma sublist_pair_strip {y q x : String} {t : List String}
    (h : List.Sublist [y, q] (x :: t)) (hy : y ≠ x) : List.Sublist [y, q] t := by
  cases h with
  | cons _ h => exact h
  | cons₂ _ h => exact absurd rfl hy

lemma validOrder_tail {supp : String → ℕ} {isPlate : String → Bool}
    {x : String} {o : List String} {H : Multiset Factor}
    (hC : Consistent isPlate H) (hV : ValidOrder isPlate H (x :: o)) :
    ValidOrder isPlate (elimStep supp (isPlate x) x H) o := by
  obtain ⟨hnd, hsub, hcon⟩ := hV
  obtain ⟨hxo, hnd2⟩ := List.nodup_cons.mp hnd
  refine ⟨hnd2, ?_, ?_⟩
  · intro f hf y hy
    obtain ⟨g, hg, hyg⟩ := mem_vars_elimStep hf hy
    have hyx : y ≠ x := fun hc => x_not_mem_elimStep _ x H f hf (hc ▸ hy)
    have hmem : y ∈ (x :: o).toFinset := hsub g hg hyg
    rw [List.toFinset_cons, Finset.mem_insert] at hmem
    rcases hmem with hmem | hmem
    · exact absurd hmem hyx
    · exact hmem
  · intro y q hy hq hco
    have hcoH := cooccur_elimStep hC hq hco
    have hyq := hcon y q hy hq hcoH
    obtain ⟨f, hf, hyf, hqf⟩ := hco
    have hyx : y ≠ x := fun hc => x_not_mem_elimStep _ x H f hf (hc ▸ hyf)
    exact sublist_pair_strip hyq hyx

lemma validOrder_promote {isPlate : String → Bool} {H : Multiset Factor}
    {o : List String} {a : String} (hV : ValidOrder isPlate H o) (ha : a ∈ o)
    (hfree : isPlate a = true → ∀ y, isPlate y = false → ¬ Cooccur H y a) :
    ValidOrder isPlate H (a :: o.erase a) := by
  obtain ⟨hnd, hsub, hcon⟩ := hV
  refine ⟨List.nodup_cons.mpr ⟨hnd.not_mem_erase, hnd.erase a⟩, ?_, ?_⟩
  · intro f hf y hy
    have hmem : y ∈ o.toFinset := hsub f hf hy
    rw [List.mem_toFinset] at hmem
    rw [List.toFinset_cons, Finset.mem_insert]
    by_cases hya : y = a
    · exact Or.inl hya
    · exact Or.inr (List.mem_toFinset.mpr ((List.mem_erase_of_ne hya).mpr hmem))
  · intro y q hy hq hco
    have hyq := hcon y q hy hq hco
    by_cases hqa : q = a
    · subst hqa
      exact absurd hco (hfree hq y hy)
    · by_cases hya : y = a
      · subst hya
        refine List.Sublist.cons₂ y ?_
        rw [List.singleton_sublist]
        exact (List.mem_erase_of_ne hqa).mpr (hyq.subset (by simp))
      · refine List.Sublist.cons a ?_
        refine sublist_erase_of_not_mem hyq ?_
        intro hc
        rcases List.mem_cons.mp hc with hc | hc
        · exact hya hc.symm
        · rcases List.mem_cons.mp hc with hc | hc
          · exact hqa hc.symm
          · cases hc

lemma runElim_promote (supp : String → ℕ) (isPlate : String → Bool) :
    ∀ (o : List String) (H : Multiset Factor) (a : String),
      Proper H → Consistent isPlate H → ValidOrder isPlate H o → a ∈ o →
      (isPlate a = true → ∀ y, isPlate y = false → ¬ Cooccur H y a) →
      runElim supp isPlate o H = runElim supp isPlate (a :: o.erase a) H := by
  intro o
  induction o with
  | nil =>
    intro H a _ _ _ ha _
    cases ha
  | cons b t ih =>
    intro H a hP hC hV ha hfree
    by_cases hba : b = a
    · subst hba
      rw [List.erase_cons_head]
    · have hat : a ∈ t := by
        rcases List.mem_cons.mp ha with h | h
        · exact absurd h.symm hba
        · exact h
      have hab : a ≠ b := fun h => hba h.symm
      have hP2 : Proper (elimStep supp (isPlate b) b H) := proper_elimStep hP
      have hC2 := @consistent_elimStep supp isPlate b H hC
      have hV2 := @validOrder_tail supp isPlate b t H hC hV
      have hfree2 : isPlate a = true → ∀ y, isPlate y = false →
          ¬ Cooccur (elimStep supp (isPlate b) b H) y a := by
        intro hpa y hy hco
        exact hfree hpa y hy (cooccur_elimStep hC hpa hco)
      have hmix : Cooccur H b a → isPlate b = isPlate a := by
        intro hco
        cases hpa : isPlate a <;> cases hpb : isPlate b
        · rfl
        · have hsub := hV.2.2 a b hpa hpb (cooccur_symm hco)
          have hstrip := sublist_pair_strip hsub hab
          have hbt : b ∈ t := hstrip.subset (by simp)
          exact absurd hbt (List.nodup_cons.mp hV.1).1
        · exact absurd hco (hfree hpa b hpb)
        · rfl
      calc runElim supp isPlate (b :: t) H
          = runElim supp isPlate t (elimStep supp (isPlate b) b H) := rfl
        _ = runElim supp isPlate (a :: t.erase a) (elimStep supp (isPlate b) b H) :=
            ih (elimStep supp (isPlate b) b H) a hP2 hC2 hV2 hat hfree2
        _ = runElim supp isPlate (t.erase a)
              (elimStep supp (isPlate a) a (elimStep supp (isPlate b) b H)) := rfl
        _ = runElim supp isPlate (t.erase a)
              (elimStep supp (isPlate b) b (elimStep supp (isPlate a) a H)) := by
            rw [elimStep_comm supp isPlate hba hP hmix]
        _ = runElim supp isPlate (a :: (b :: t).erase a) H := by
            rw [List.erase_cons_tail (not_beq_of_ne hba)]
            rfl

lemma runElim_perm (supp : String → ℕ) (isPlate : String → Bool) :
    ∀ (o₁ o₂ : List String) (H : Multiset Factor),
      Proper H → Consistent isPlate H → ValidOrder isPlate H o₁ →
      ValidOrder isPlate H o₂ → List.Perm o₁ o₂ →
      runElim supp isPlate o₁ H = runElim supp isPlate o₂ H := by
  intro o₁
  induction o₁ with
  | nil =>
    intro o₂ H _ _ _ _ hperm
    rw [hperm.symm.eq_nil]
  | cons a t ih =>
    intro o₂ H hP hC hV₁ hV₂ hperm
    have ha₂ : a ∈ o₂ := hperm.mem_iff.mp (by simp)
    have hfree : isPlate a = true → ∀ y, isPlate y = false → ¬ Cooccur H y a := by
      intro hpa y hy hco
      have hsub := hV₁.2.2 y a hy hpa hco
      have hya : y ≠ a := by
        rintro rfl
        rw [hy] at hpa
        exact Bool.false_ne_true hpa
      have hstrip := sublist_pair_strip hsub hya
      have hat : a ∈ t := hstrip.subset (by simp)
      exact absurd hat (List.nodup_cons.mp hV₁.1).1
    rw [runElim_promote supp isPlate o₂ H a hP hC hV₂ ha₂ hfree]
    have hV₂2 : ValidOrder isPlate H (a :: o₂.erase a) :=
      validOrder_promote hV₂ ha₂ hfree
    show runElim supp isPlate t (elimStep supp (isPlate a) a H)
      = runElim supp isPlate (o₂.erase a) (elimStep supp (isPlate a) a H)
    refine ih (o₂.erase a) (elimStep supp (isPlate a) a H)
      (proper_elimStep hP) (consistent_elimStep hC)
      (validOrder_tail hC hV₁) (validOrder_tail hC hV₂2) ?_
    have h1 : List.Perm o₂ (a :: o₂.erase a) := List.perm_cons_erase ha₂
    exact (hperm.trans h1).cons_inv

/-- Claim C7: for every assembled factor graph (factors reading only their
declared dimensions, with the consistent plate contexts funsor requires of
tractable graphs), the value computed by the sum-product eliminator is the
same under every internally valid elimination order the optimizer may select:
any two valid orders over the same eliminate set yield equal results. -/
theorem sum_product_order_invariant (supp : String → ℕ)
    (isPlate : String → Bool) (G : Multiset Factor) (o₁ o₂ : List String)
    (hP : Proper G) (hC : Consistent isPlate G)
    (hV₁ : ValidOrder isPlate G o₁) (hV₂ : ValidOrder isPlate G o₂)
    (hperm : List.Perm o₁ o₂) :
    finalVal (runElim supp isPlate o₁ G) = finalVal (runElim supp isPlate o₂ G) := by
  rw [runElim_perm supp isPlate o₁ o₂ G hP hC hV₁ hV₂ hperm]

/-- The support map of the order-invariance example: every dimension has two
states. -/
def exSupp : String → ℕ := fun _ => 2

/-- The plate-role map of the order-invariance example: the single plate
dimension p. -/
def exPlate : String → Bool := fun s => s == "p"

/-- A factor over the sum dimension x and the plate dimension p. -/
def exF1 : Factor :=
  ⟨{"x", "p"}, fun σ => ((σ "x" * 2 + σ "p" + 1 : ℕ) : ℚ)⟩

/-- A factor over the sum dimension y alone. -/
def exF2 : Factor :=
  ⟨{"y"}, fun σ => ((σ "y" + 1 : ℕ) : ℚ)⟩

/-- The example factor graph. -/
def exG : Multiset Factor := {exF1, exF2}

lemma mem_exG {f : Factor} (hf : f ∈ exG) : f = exF1 ∨ f = exF2 := by
  rw [show exG = exF1 ::ₘ {exF2} from rfl] at hf
  rcases Multiset.mem_cons.mp hf with hf | hf
  · exact Or.inl hf
  · exact Or.inr (Multiset.mem_singleton.mp hf)

lemma exG_proper : Proper exG := by
  intro f hf
  rcases mem_exG hf with rfl | rfl
  · intro σ τ h
    show ((σ "x" * 2 + σ "p" + 1 : ℕ) : ℚ) = ((τ "x" * 2 + τ "p" + 1 : ℕ) : ℚ)
    rw [h "x" (by decide), h "p" (by decide)]
  · intro σ τ h
    show ((σ "y" + 1 : ℕ) : ℚ) = ((τ "y" + 1 : ℕ) : ℚ)
    rw [h "y" (by decide)]

lemma exG_consistent : Consistent exPlate exG := by
  intro z _ f hf g hg hzf hzg
  rcases mem_exG hf with rfl | rfl <;> rcases mem_exG hg with rfl | rfl
  · rfl
  · have hz1 : z ∈ ({"x", "p"} : Finset String) := hzf
    have hz2 : z ∈ ({"y"} : Finset String) := hzg
    rw [Finset.mem_singleton.mp hz2] at hz1
    exact absurd hz1 (by decide)
  · have hz1 : z ∈ ({"x", "p"} : Finset String) := hzg
    have hz2 : z ∈ ({"y"} : Finset String) := hzf
    rw [Finset.mem_singleton.mp hz2] at hz1
    exact absurd hz1 (by decide)
  · rfl

lemma exG_valid (o : List String) (hnd : o.Nodup)
    (hx : List.Sublist ["x", "p"] o) (hsub : ∀ y ∈ (["x", "p", "y"] : List String), y ∈ o) :
    ValidOrder exPlate exG o := by
  refine ⟨hnd, ?_, ?_⟩
  · intro f hf y hy
    rcases mem_exG hf with rfl | rfl
    · have hmem : y ∈ ({"x", "p"} : Finset String) := hy
      rw [List.mem_toFinset]
      rcases Finset.mem_insert.mp hmem with h | h
      · exact hsub y (by rw [h]; decide)
      · exact hsub y (by rw [Finset.mem_singleton.mp h]; decide)
    · have hmem : y ∈ ({"y"} : Finset String) := hy
      rw [List.mem_toFinset, Finset.mem_singleton.mp hmem]
      exact hsub "y" (by decide)
  · intro z p hz hp hco
    have hpp : p = "p" := by
      have : (p == "p") = true := hp
      exact eq_of_beq this
    subst hpp
    obtain ⟨f, hf, hzf, hpf⟩ := hco
    rcases mem_exG hf with rfl | rfl
    · have hz1 : z ∈ ({"x", "p"} : Finset String) := hzf
      have hzp : z ≠ "p" := by
        intro hc
        rw [hc] at hz
        simp [exPlate] at hz
      have hzx : z = "x" := by
        rcases Finset.mem_insert.mp hz1 with h | h
        · exact h
        · exact absurd (Finset.mem_singleton.mp h) hzp
      rw [hzx]
      exact hx
    · exact absurd (Finset.mem_singleton.mp hpf) (by decide)

/-- Claim C7 witness: the order-invariance theorem applied to a concrete
two-factor graph with one plate, under the two valid orders x p y and
y x p. -/
theorem sum_product_order_invariant_witness :
    finalVal (runElim exSupp exPlate ["x", "p", "y"] exG)
      = finalVal (runElim exSupp exPlate ["y", "x", "p"] exG) := by
  refine sum_product_order_invariant exSupp exPlate exG _ _ exG_proper
    exG_consistent (exG_valid _ (by decide) ?_ ?_) (exG_valid _ (by decide) ?_ ?_)
    (by decide)
  · decide
  · decide
  · decide
  · decide

/-!
## Brute-force enumeration (the reference semantics of claim C1)

sumAssign sums a function of an assignment over all joint assignments of a
list of variables: the exhaustive enumeration of all discrete assignments.
In weight space this is the logaddexp, over all joint assignments, of the
hand-computed joint log-probability.
-/

/-- Sum of g over every joint assignment of the listed variables (each
variable ranging over its support), on top of the base assignment σ. -/
def sumAssign (supp : String → ℕ) : List String → ((String → ℕ) → ℚ) →
    (String → ℕ) → ℚ
  | [], g, σ => g σ
  | x :: xs, g, σ =>
      ∑ v in Finset.range (supp x), sumAssign supp xs g (Function.update σ x v)

lemma sumAssign_congr {supp : String → ℕ} {g h : (String → ℕ) → ℚ}
    (hgh : ∀ τ, g τ = h τ) :
    ∀ (L : List String) (σ : String → ℕ), sumAssign supp L g σ = sumAssign supp L h σ := by
  intro L
  induction L with
  | nil => intro σ; exact hgh σ
  | cons x xs ih =>
    intro σ
    exact Finset.sum_congr rfl fun v _ => ih _

lemma sumAssign_update {supp : String → ℕ} {g : (String → ℕ) → ℚ} {x : String}
    {v : ℕ} :
    ∀ (L : List String), x ∉ L → ∀ σ : String → ℕ,
      sumAssign supp L g (Function.update σ x v)
        = sumAssign supp L (fun τ => g (Function.update τ x v)) σ := by
  intro L
  induction L with
  | nil => intro _ σ; rfl
  | cons y ys ih =>
    intro hx σ
    have hxy : y ≠ x := fun h => hx (h ▸ List.mem_cons_self y ys)
    refine Finset.sum_congr rfl fun w _ => ?_
    rw [Function.update_comm (Ne.symm hxy)]
    exact ih (fun h => hx (List.mem_cons_of_mem y h)) _

lemma sumAssign_sum {supp : String → ℕ} {n : ℕ} {h : ℕ → (String → ℕ) → ℚ} :
    ∀ (L : List String) (σ : String → ℕ),
      sumAssign supp L (fun τ => ∑ v in Finset.range n, h v τ) σ
        = ∑ v in Finset.range n, sumAssign supp L (h v) σ := by
  intro L
  induction L with
  | nil => intro σ; rfl
  | cons x xs ih =>
    intro σ
    show (∑ w in Finset.range (supp x),
        sumAssign supp xs (fun τ => ∑ v in Finset.range n, h v τ)
          (Function.update σ x w)) = _
    calc (∑ w in Finset.range (supp x),
          sumAssign supp xs (fun τ => ∑ v in Finset.range n, h v τ)
            (Function.update σ x w))
        = ∑ w in Finset.range (supp x), ∑ v in Finset.range n,
            sumAssign supp xs (h v) (Function.update σ x w) :=
          Finset.sum_congr rfl fun w _ => ih _
      _ = ∑ v in Finset.range n, ∑ w in Finset.range (supp x),
            sumAssign supp xs (h v) (Function.update σ x w) := Finset.sum_comm
      _ = ∑ v in Finset.range n, sumAssign supp (x :: xs) (h v) σ := rfl

lemma sumAssign_perm {supp : String → ℕ} {g : (String → ℕ) → ℚ}
    {L L2 : List String} (hperm : List.Perm L L2) :
    ∀ σ : String → ℕ, sumAssign supp L g σ = sumAssign supp L2 g σ := by
  induction hperm with
  | nil => intro σ; rfl
  | cons x h ih =>
    intro σ
    exact Finset.sum_congr rfl fun v _ => ih _
  | swap x y l =>
    intro σ
    by_cases hxy : x = y
    · subst hxy
      rfl
    · show (∑ v in Finset.range (supp y), ∑ w in Finset.range (supp x),
          sumAssign supp l g (Function.update (Function.update σ y v) x w)) = _
      rw [Finset.sum_comm]
      refine Finset.sum_congr rfl fun w _ => Finset.sum_congr rfl fun v _ => ?_
      rw [Function.update_comm hxy]
  | trans h₁ h₂ ih₁ ih₂ =>
    intro σ
    rw [ih₁ σ, ih₂ σ]

lemma runElim_sum_global (supp : String → ℕ) :
    ∀ (o : List String) (L : List String) (G : Multiset Factor) (σ : String → ℕ),
      Proper G → o.Nodup → L.Nodup →
      (∀ f ∈ G, ∀ y ∈ f.vars, y ∈ L) →
      (∀ ℓ ∈ L, ∃ f ∈ G, ℓ ∈ f.vars) →
      (∀ ℓ ∈ L, ℓ ∈ o) →
      evalProd (runElim supp (fun _ => false) o G) σ
        = sumAssign supp L (fun τ => evalProd G τ) σ := by
  intro o
  induction o with
  | nil =>
    intro L G σ _ _ _ _ _ hLo
    cases L with
    | nil => rfl
    | cons ℓ t => exact absurd (hLo ℓ (List.mem_cons_self ℓ t)) (by simp)
  | cons x o2 ih =>
    intro L G σ hP hnd hndL hvars hcover hLo
    obtain ⟨hxo, hnd2⟩ := List.nodup_cons.mp hnd
    by_cases hxL : x ∈ L
    · -- x is a latent dimension: a genuine sum elimination happens
      obtain ⟨f₀, hf₀, hxf₀⟩ := hcover x hxL
      have hcard : (G.filter (fun f => x ∈ f.vars)).card ≠ 0 := by
        intro hc
        exact filter_vars_card_zero.mp hc f₀ hf₀ hxf₀
      have hstep : runElim supp (fun _ => false) (x :: o2) G
          = runElim supp (fun _ => false) o2
              (G.filter (fun f => x ∉ f.vars)
                + {sumElim supp x (G.filter (fun f => x ∈ f.vars))}) := by
        show runElim supp (fun _ => false) o2 (elimStep supp false x G) = _
        rw [elimStep_sum_eq hcard]
      rw [hstep]
      have hP2 : Proper (G.filter (fun f => x ∉ f.vars)
          + {sumElim supp x (G.filter (fun f => x ∈ f.vars))}) := by
        rw [← elimStep_sum_eq hcard]
        exact proper_elimStep hP
      have hvars2 : ∀ f ∈ (G.filter (fun f => x ∉ f.vars)
          + {sumElim supp x (G.filter (fun f => x ∈ f.vars))}),
          ∀ y ∈ f.vars, y ∈ L.erase x := by
        intro f hf y hy
        rcases Multiset.mem_add.mp hf with hf | hf
        · obtain ⟨hfG, hxf⟩ := Multiset.mem_filter.mp hf
          have hyx : y ≠ x := fun h => hxf (h ▸ hy)
          exact (List.mem_erase_of_ne hyx).mpr (hvars f hfG y hy)
        · rw [Multiset.mem_singleton.mp hf] at hy
          obtain ⟨hyx, g, hg, hyg⟩ := vars_sumElim.mp hy
          exact (List.mem_erase_of_ne hyx).mpr
            (hvars g (Multiset.mem_filter.mp hg).1 y hyg)
      have hcover2 : ∀ ℓ ∈ L.erase x, ∃ f ∈ (G.filter (fun f => x ∉ f.vars)
          + {sumElim supp x (G.filter (fun f => x ∈ f.vars))}), ℓ ∈ f.vars := by
        intro ℓ hℓ
        have hℓx : ℓ ≠ x := by
          rintro rfl
          exact hndL.not_mem_erase hℓ
        have hℓL : ℓ ∈ L := List.erase_subset x L hℓ
        obtain ⟨f, hf, hℓf⟩ := hcover ℓ hℓL
        by_cases hxf : x ∈ f.vars
        · refine ⟨sumElim supp x (G.filter (fun f => x ∈ f.vars)), ?_, ?_⟩
          · exact Multiset.mem_add.mpr (Or.inr (Multiset.mem_singleton.mpr rfl))
          · exact vars_sumElim.mpr ⟨hℓx, f, Multiset.mem_filter.mpr ⟨hf, hxf⟩, hℓf⟩
        · exact ⟨f, Multiset.mem_add.mpr
            (Or.inl (Multiset.mem_filter.mpr ⟨hf, hxf⟩)), hℓf⟩
      have hLo2 : ∀ ℓ ∈ L.erase x, ℓ ∈ o2 := by
        intro ℓ hℓ
        have hℓx : ℓ ≠ x := by
          rintro rfl
          exact hndL.not_mem_erase hℓ
        have hℓL : ℓ ∈ L := List.erase_subset x L hℓ
        rcases List.mem_cons.mp (hLo ℓ hℓL) with h | h
        · exact absurd h hℓx
        · exact h
      rw [ih (L.erase x) _ σ hP2 hnd2 (hndL.erase x) hvars2 hcover2 hLo2]
      -- the remaining algebra: one sum variable pulled out of the global sum
      have hLperm : List.Perm L (x :: L.erase x) := List.perm_cons_erase hxL
      rw [sumAssign_perm hLperm σ]
      show sumAssign supp (L.erase x)
          (fun τ => evalProd (G.filter (fun f => x ∉ f.vars)
            + {sumElim supp x (G.filter (fun f => x ∈ f.vars))}) τ) σ
        = ∑ v in Finset.range (supp x),
            sumAssign supp (L.erase x) (fun τ => evalProd G τ)
              (Function.update σ x v)
      have hstep2 : ∀ τ, evalProd (G.filter (fun f => x ∉ f.vars)
          + {sumElim supp x (G.filter (fun f => x ∈ f.vars))}) τ
          = ∑ v in Finset.range (supp x),
              evalProd G (Function.update τ x v) := by
        intro τ
        rw [evalProd_add, evalProd_singleton]
        show evalProd (G.filter (fun f => x ∉ f.vars)) τ
            * (∑ v in Finset.range (supp x),
                evalProd (G.filter (fun f => x ∈ f.vars))
                  (Function.update τ x v)) = _
        rw [Finset.mul_sum]
        refine Finset.sum_congr rfl fun v _ => ?_
        have hPR : Proper (G.filter (fun f => x ∉ f.vars)) :=
          fun f hf => hP f (Multiset.mem_filter.mp hf).1
        have hR : ∀ f ∈ G.filter (fun f => x ∉ f.vars), x ∉ f.vars :=
          fun f hf => (Multiset.mem_filter.mp hf).2
        rw [← evalProd_update_not_mem hPR hR τ v, ← evalProd_add, add_comm,
          filter_partition]
      rw [sumAssign_congr hstep2 (L.erase x) σ, sumAssign_sum]
      refine Finset.sum_congr rfl fun v _ => ?_
      have hxL2 : x ∉ L.erase x := hndL.not_mem_erase
      rw [sumAssign_update (L.erase x) hxL2 σ]
    · -- x names no dimension of any factor: the elimination is a no-op
      have h0 : ∀ f ∈ G, x ∉ f.vars := by
        intro f hf hx
        exact hxL (hvars f hf x hx)
      have hstep : runElim supp (fun _ => false) (x :: o2) G
          = runElim supp (fun _ => false) o2 G := by
        show runElim supp (fun _ => false) o2 (elimStep supp false x G) = _
        rw [elimStep_sum_noop h0]
      rw [hstep]
      refine ih L G σ hP hnd2 hndL hvars hcover ?_
      intro ℓ hℓ
      rcases List.mem_cons.mp (hLo ℓ hℓ) with h | h
      · subst h
        exact absurd hℓ hxL
      · exact h

/-!
## log_density on purely discrete models (claim C1)

Modelled from the spec: the trace collection under substitution and
enumeration (the collaborators numpyro.handlers.substitute,
numpyro.contrib.funsor.enum_messenger.trace and the enum handler, none of
which are part of this file's source) turns a model with only finite-support
discrete latent sites and observed sites into one factor per sample site: the
distribution's log-probability evaluated over the enumerated supports of the
latent dimensions the site depends on (its own name being the dimension of a
latent site's own enumerated value).  A discrete site is recorded below by
its name, whether it is observed, the set of latent dimension names its
factor reads, and the factor itself in weight space; log_density then hands
the factors, eliminate = all site names and plates = empty set to the
eliminator (lines 97-122 of infer_util.py).
-/

/-- One site of a purely discrete model, as assembled into the factor graph:
name, observedness, the latent dimensions its log-probability reads and its
weight (exponentiated log-probability) as a function of the assignment. -/
structure DSite where
  name : String
  observed : Bool
  deps : Finset String
  weight : (String → ℕ) → ℚ

/-- The latent (non-observed) site names of the model, in trace order. -/
def latentNames (M : List DSite) : List String :=
  (M.filter (fun s => s.observed = false)).map DSite.name

/-- The factor a site contributes to the graph. -/
def siteFactor (s : DSite) : Factor :=
  ⟨s.deps, s.weight⟩

/-- The factor graph log_density assembles from the trace of a purely
discrete model: one factor per sample site. -/
def modelFactors (M : List DSite) : Multiset Factor :=
  ((M.map siteFactor : List Factor) : Multiset Factor)

/-- The value log_density computes on a purely discrete model, given the
elimination order the optimizer chose over eliminate = all site names and
plates = empty set. -/
def logDensityDiscrete (supp : String → ℕ) (M : List DSite)
    (o : List String) : ℚ :=
  finalVal (runElim supp (fun _ => false) o (modelFactors M))

/-- The brute-force reference value: the sum over every joint assignment of
the discrete latents of the product of all site weights (in log space: the
logaddexp over the exhaustive enumeration of all discrete assignments of the
hand-computed joint log-probability, the sum of every site's log_prob). -/
def bruteForceMarginal (supp : String → ℕ) (M : List DSite) : ℚ :=
  sumAssign supp (latentNames M) (fun τ => evalProd (modelFactors M) τ)
    (fun _ => 0)

lemma mem_modelFactors {M : List DSite} {f : Factor} :
    f ∈ modelFactors M ↔ ∃ s ∈ M, siteFactor s = f := by
  simp [modelFactors]

/-- Claim C1: for every model with at most four finite-support discrete
latent sites and observed sites only (no continuous latents), the value
log_density returns equals the logaddexp over the exhaustive enumeration of
all joint assignments of the discrete latents of the hand-computed joint
log-probability, the sum of every site's log_prob at that assignment (stated
in weight space, where logaddexp is addition and the sum of log-probabilities
is a product of weights). -/
theorem log_density_discrete_enumeration (supp : String → ℕ)
    (M : List DSite) (o : List String)
    (_hfour : (latentNames M).length ≤ 4)
    (hnames : (M.map DSite.name).Nodup)
    (hperm : List.Perm o (M.map DSite.name))
    (hdeps : ∀ s ∈ M, ∀ y ∈ s.deps, y ∈ latentNames M)
    (hproper : ∀ s ∈ M, ∀ σ τ : String → ℕ,
      (∀ y ∈ s.deps, σ y = τ y) → s.weight σ = s.weight τ)
    (hown : ∀ s ∈ M, s.observed = false → s.name ∈ s.deps) :
    logDensityDiscrete supp M o = bruteForceMarginal supp M := by
  refine runElim_sum_global supp o (latentNames M) (modelFactors M)
    (fun _ => 0) ?_ ?_ ?_ ?_ ?_ ?_
  · intro f hf
    obtain ⟨s, hs, rfl⟩ := mem_modelFactors.mp hf
    exact hproper s hs
  · exact (hperm.nodup_iff).mpr hnames
  · have hsub : List.Sublist (latentNames M) (M.map DSite.name) :=
      (List.filter_sublist M).map DSite.name
    exact List.Nodup.sublist hsub hnames
  · intro f hf y hy
    obtain ⟨s, hs, rfl⟩ := mem_modelFactors.mp hf
    exact hdeps s hs y hy
  · intro ℓ hℓ
    rw [latentNames] at hℓ
    obtain ⟨s, hs, rfl⟩ := List.mem_map.mp hℓ
    obtain ⟨hsM, hsobs⟩ := List.mem_filter.mp hs
    refine ⟨siteFactor s, mem_modelFactors.mpr ⟨s, hsM, rfl⟩, ?_⟩
    exact hown s hsM (by simpa using hsobs)
  · intro ℓ hℓ
    refine hperm.mem_iff.mpr ?_
    rw [latentNames] at hℓ
    obtain ⟨s, hs, rfl⟩ := List.mem_map.mp hℓ
    exact List.mem_map.mpr ⟨s, (List.mem_filter.mp hs).1, rfl⟩

/-- The support map of the enumeration example: two states per latent. -/
def wSupp : String → ℕ := fun _ => 2

/-- Latent site x with weights three tenths and seven tenths. -/
def wSiteX : DSite :=
  ⟨"x", false, {"x"}, fun τ => if τ "x" = 0 then 3/10 else 7/10⟩

/-- Latent site y with weights two fifths and three fifths. -/
def wSiteY : DSite :=
  ⟨"y", false, {"y"}, fun τ => if τ "y" = 0 then 2/5 else 3/5⟩

/-- Observed site z whose likelihood depends on both latents. -/
def wSiteZ : DSite :=
  ⟨"z", true, {"x", "y"}, fun τ => if τ "x" = τ "y" then 3/4 else 1/4⟩

/-- The example model: two discrete latents and one observed site. -/
def wModel : List DSite := [wSiteX, wSiteY, wSiteZ]

lemma mem_wModel {s : DSite} (hs : s ∈ wModel) :
    s = wSiteX ∨ s = wSiteY ∨ s = wSiteZ := by
  rcases List.mem_cons.mp hs with h | hs
  · exact Or.inl h
  rcases List.mem_cons.mp hs with h | hs
  · exact Or.inr (Or.inl h)
  rcases List.mem_cons.mp hs with h | hs
  · exact Or.inr (Or.inr h)
  · cases hs

/-- Claim C1 witness: the enumeration theorem applied to the concrete model
with latents x and y and observed site z, eliminated in the order z x y. -/
theorem log_density_discrete_enumeration_witness :
    logDensityDiscrete wSupp wModel ["z", "x", "y"]
      = bruteForceMarginal wSupp wModel := by
  refine log_density_discrete_enumeration wSupp wModel ["z", "x", "y"]
    (by decide) (by decide) (by decide) ?_ ?_ ?_
  · intro s hs
    rcases mem_wModel hs with rfl | rfl | rfl
    · decide
    · decide
    · decide
  · intro s hs σ τ h
    rcases mem_wModel hs with rfl | rfl | rfl
    · show (if σ "x" = 0 then (3/10 : ℚ) else 7/10)
        = if τ "x" = 0 then (3/10 : ℚ) else 7/10
      rw [h "x" (by decide)]
    · show (if σ "y" = 0 then (2/5 : ℚ) else 3/5)
        = if τ "y" = 0 then (2/5 : ℚ) else 3/5
      rw [h "y" (by decide)]
    · show (if σ "x" = σ "y" then (3/4 : ℚ) else 1/4)
        = if τ "x" = τ "y" then (3/4 : ℚ) else 1/4
      rw [h "x" (by decide), h "y" (by decide)]
  · intro s hs hobs
    rcases mem_wModel hs with rfl | rfl | rfl
    · decide
    · decide
    · exact absurd hobs (by decide)

end NumpyroFunsor
